/-
Verification of the org-chart hierarchy engine.

Shallow embedding of the core data model and operations:
  * `Person` and the sibling comparator (src/components/OrgChart.tsx, src/types.ts)
  * the effective-tier breadth-first deriver (src/components/OrgChart.tsx, effectiveTiers)
  * move / reorder / import state transitions (src/App.tsx)
  * secondary-manager and support connector endpoint computation (Lines component)

JavaScript semantics are modelled as follows: `x ?? d` becomes `Option.getD`,
truthiness of a string value (`!s`, `s || d`) tests for the empty string,
`Array.prototype.sort` (stable since ES2019) becomes a stable insertion sort,
`Map` becomes an association list with overwrite-or-append `set`, `Set` becomes
a duplicate-free list, and the unbounded recursions of `isDescendant` /
`getDescendants` and the BFS loop are totalized with a fuel parameter that is
provably sufficient (the BFS visits each person at most once).
-/
import Mathlib

namespace OrgChartSpec

/-- The `Person` record (src/types.ts plus the `tier` / `sortOrder` /
`supportedIds` fields used throughout the components).  `managerId := none`
models JS `null`/`undefined`; `some ""` models the empty string, which the
code also treats as "no manager". -/
structure Person where
  id : String
  name : String := ""
  title : String := ""
  department : String := ""
  location : String := ""
  managerId : Option String := none
  secondaryManagerIds : List String := []
  supportedIds : List String := []
  teamName : Option String := none
  isTeamLead : Bool := false
  tier : Option Nat := none
  sortOrder : Option Int := none
  isVacancy : Bool := false
deriving DecidableEq, Repr

/-- Direction argument of the reorder handler ('left' | 'right'). -/
inductive Direction where
  | left
  | right
deriving DecidableEq, Repr

/-- JS `Map.get`: first binding of the key in the association list. -/
def mapGet {α : Type} : List (String × α) → String → Option α
  | [], _ => none
  | e :: es, k => if e.fst = k then some e.snd else mapGet es k

/-- JS `Map.set`: overwrite the existing binding in place, else append. -/
def mapSet {α : Type} : List (String × α) → String → α → List (String × α)
  | [], k, v => [(k, v)]
  | e :: es, k, v => if e.fst = k then (k, v) :: es else e :: mapSet es k v

/-- JS `Set.add` on a duplicate-free list. -/
def setAdd (v : List String) (x : String) : List String :=
  if x ∈ v then v else v ++ [x]

/-- Accumulator loop of `Array.from(new Set(l))`: keep first occurrences. -/
def dedupGo : List String → List String → List String
  | acc, [] => acc
  | acc, x :: xs => if x ∈ acc then dedupGo acc xs else dedupGo (acc ++ [x]) xs

/-- `Array.from(new Set(l))`: deduplicate keeping first-occurrence order. -/
def jsSetDedup (l : List String) : List String := dedupGo [] l

/-- Model of `String.prototype.localeCompare` as a three-way comparison in the
lexicographic string order (the host locale order is environment-specific; the
code only relies on it being a total comparison). -/
def localeCompare (a b : String) : Int :=
  if a = b then 0 else if a < b then -1 else 1

/-- The sibling comparator (src/components/OrgChart.tsx, `sortBySortOrder`):
sort by `sortOrder` with the absent value replaced by the sentinel 999999,
ties broken by `isTeamLead` (leads first) then by name comparison. -/
def sortBySortOrder (a b : Person) : Int :=
  let aOrder : Int := a.sortOrder.getD 999999
  let bOrder : Int := b.sortOrder.getD 999999
  if aOrder ≠ bOrder then aOrder - bOrder
  else
    let aLead : Int := if a.isTeamLead then 0 else 1
    let bLead : Int := if b.isTeamLead then 0 else 1
    if aLead ≠ bLead then aLead - bLead
    else localeCompare a.name b.name

/-- The sentinel-adjusted sort key of the comparator. -/
def orderKey (p : Person) : Int := p.sortOrder.getD 999999

/-- Lead key: 0 for team leads, 1 otherwise. -/
def leadKey (p : Person) : Int := if p.isTeamLead then 0 else 1

/-- `sortBySortOrder a b ≤ 0`, the Boolean "a comes no later than b". -/
def sortLE (a b : Person) : Bool := sortBySortOrder a b ≤ 0

/-- Stable insertion of one element: the new element goes after every existing
element that compares `le` to it, so later elements stay after equal earlier
ones. -/
def insertS {α : Type} (le : α → α → Bool) (x : α) : List α → List α
  | [] => [x]
  | y :: ys => if le y x then y :: insertS le x ys else x :: y :: ys

/-- Stable sort (model of ES2019 `Array.prototype.sort`, which is required to
be stable; any stable sort yields the same output for a total preorder). -/
def stableSort {α : Type} (le : α → α → Bool) (l : List α) : List α :=
  l.foldl (fun acc x => insertS le x acc) []

/-- JS `!p.managerId` negated: the manager reference is a non-empty string. -/
def mgrTruthy (p : Person) : Bool :=
  match p.managerId with
  | none => false
  | some s => s != ""

/-- `normalizeMgrId` (src/App.tsx): `id || null`, mapping the empty string to
`none` so null / undefined / '' agree. -/
def normalizeMgrId (id : Option String) : Option String :=
  match id with
  | none => none
  | some s => if s = "" then none else some s

/-- Root test of `rootPeople` (src/components/OrgChart.tsx line 260):
`!p.managerId || !people.find(m => m.id === p.managerId)`. -/
def isRootB (people : List Person) (p : Person) : Bool :=
  match p.managerId with
  | none => true
  | some s => (s == "") || (people.find? (fun m => m.id = s)).isNone

/-- `rootPeople`: people with no resolvable manager, sorted by the sibling
comparator. -/
def rootPeople (people : List Person) : List Person :=
  stableSort sortLE (people.filter (fun p => isRootB people p))

/-- The `childrenOf` lookup built at the top of `effectiveTiers`: people whose
(truthy) `managerId` equals the given id, in list order. -/
def childrenOf (people : List Person) (mid : String) : List Person :=
  people.filter (fun p => mgrTruthy p && p.managerId.getD "" = mid)

/-- `p.tier != null ? p.tier : 0`. -/
def tierDefault (p : Person) : Nat := p.tier.getD 0

/-- State of the BFS in `effectiveTiers`: the tier map, the visited id set and
the work queue of (id, depth) pairs. -/
structure BfsSt where
  tiers : List (String × Nat)
  visited : List String
  queue : List (String × Nat)
deriving Repr

/-- Inner loop of one BFS step (`children.forEach` in `effectiveTiers`): each
unvisited child gets tier `max(desired, parentTier + 1)` where `desired` is its
manual tier if set, else `parentTier + 1`, and is marked visited and enqueued. -/
def processKids (parentTier depth : Nat) : List Person → BfsSt → BfsSt
  | [], st => st
  | c :: cs, st =>
    if c.id ∈ st.visited then processKids parentTier depth cs st
    else
      let naturalTier := parentTier + 1
      let desired := match c.tier with | some t => t | none => naturalTier
      let effective := max desired naturalTier
      processKids parentTier depth cs
        ⟨mapSet st.tiers c.id effective, st.visited ++ [c.id],
         st.queue ++ [(c.id, depth + 1)]⟩

/-- The `while (queue.length > 0)` BFS loop of `effectiveTiers`, totalized by
fuel.  Each iteration pops one queue entry and processes its children. -/
def bfsLoop (people : List Person) : Nat → BfsSt → BfsSt
  | 0, st => st
  | fuel + 1, st =>
    match st.queue with
    | [] => st
    | (id, depth) :: rest =>
      let parentTier := (mapGet st.tiers id).getD 0
      bfsLoop people fuel
        (processKids parentTier depth (childrenOf people id)
          ⟨st.tiers, st.visited, rest⟩)

/-- Seeding loop of `effectiveTiers`: every root starts at its manual tier if
set, else 0, is marked visited and enqueued at depth 0. -/
def seedRoots (people : List Person) : BfsSt :=
  (rootPeople people).foldl
    (fun st p =>
      ⟨mapSet st.tiers p.id (tierDefault p), setAdd st.visited p.id,
       st.queue ++ [(p.id, 0)]⟩)
    ⟨[], [], []⟩

/-- Sufficient fuel for the BFS: the loop's measure (queue length plus number
of unvisited people) only decreases, so this bound is never exhausted. -/
def bfsFuel (people : List Person) (st : BfsSt) : Nat :=
  st.queue.length + people.length

/-- Seed the roots and run the BFS to completion. -/
def deriveTiers (people : List Person) : BfsSt :=
  let seeded := seedRoots people
  bfsLoop people (bfsFuel people seeded) seeded

/-- The orphan pass of `effectiveTiers`: every person not reached by the BFS
is assigned its own manual tier or 0. -/
def orphanPass (people : List Person) (visited : List String)
    (tiers : List (String × Nat)) : List (String × Nat) :=
  people.foldl
    (fun t p => if p.id ∈ visited then t else mapSet t p.id (tierDefault p))
    tiers

/-- `effectiveTiers` (src/components/OrgChart.tsx lines 284-332): the final
tier map over all people. -/
def effectiveTiers (people : List Person) : List (String × Nat) :=
  let st := deriveTiers people
  orphanPass people st.visited st.tiers

/-- The set of ids reached by the breadth-first traversal from the roots. -/
def bfsVisited (people : List Person) : List String :=
  (deriveTiers people).visited

/-- Effective tier of an id, if assigned. -/
def tierOf (people : List Person) (id : String) : Option Nat :=
  mapGet (effectiveTiers people) id

/-- `getSecondaryManager` (src/components/OrgChart.tsx lines 229-234): resolve
only the FIRST entry of `secondaryManagerIds` for the card badge. -/
def getSecondaryManager (people : List Person) (p : Person) : Option Person :=
  match p.secondaryManagerIds with
  | [] => none
  | m :: _ => people.find? (fun q => q.id = m)

/-- `isDescendant` inside `handleMovePerson` (src/App.tsx lines 309-316): walk
the children of `parentId` looking for `childId`.  The source recursion is
unbounded (it diverges on a cyclic manager graph); here it carries fuel, and
`people.length` fuel is proved sufficient to find every descendant. -/
def isDescendant (people : List Person) : Nat → String → String → Bool
  | 0, _, _ => false
  | fuel + 1, parentId, childId =>
    (people.filter (fun p => p.managerId = some parentId)).any
      (fun c => c.id = childId || isDescendant people fuel c.id childId)

/-- `getDescendants` inside `handleMovePerson` (src/App.tsx lines 327-335):
collect all transitive descendant ids, depth-first, fuel-totalized. -/
def getDescendants (people : List Person) : Nat → String → List String
  | 0, _ => []
  | fuel + 1, parentId =>
    (people.filter (fun p => p.managerId = some parentId)).flatMap
      (fun c => c.id :: getDescendants people fuel c.id)

/-- JS `a || b` for an optional string against a default: `none` and `""` are
falsy. -/
def strOrElse (a : Option String) (b : String) : String :=
  match a with
  | none => b
  | some s => if s = "" then b else s

/-- Truthiness of `targetDepartment` in `handleMovePerson`. -/
def deptTruthy (a : Option String) : Bool :=
  match a with
  | none => false
  | some s => s != ""

/-- `handleMovePerson` (src/App.tsx lines 306-361) as a pure state transition
on the person list: reject self-moves and cycle-creating moves unchanged; on
success re-parent the dragged person under the target, force its department
(and every descendant's) to the target's truthy department, and place it after
the target's current children. -/
def handleMovePerson (people : List Person) (draggedId targetId : String) :
    List Person :=
  if draggedId = targetId then people
  else if isDescendant people people.length draggedId targetId then people
  else
    let targetPerson := people.find? (fun q => q.id = targetId)
    let targetDepartment := targetPerson.map (fun q => q.department)
    let descendantIds := getDescendants people people.length draggedId
    let targetChildren := people.filter (fun q => q.managerId = some targetId)
    let maxOrder := targetChildren.foldl (fun mx c => max mx (c.sortOrder.getD 0)) 0
    people.map (fun q =>
      if q.id = draggedId then
        { q with managerId := some targetId,
                 department := strOrElse targetDepartment q.department,
                 sortOrder := some (maxOrder + 1) }
      else if descendantIds.contains q.id && deptTruthy targetDepartment then
        { q with department := targetDepartment.getD q.department }
      else q)

/-- The sibling group of a normalized manager id
(`prev.filter(p => normalizeMgrId(p.managerId) === personMgrId)`). -/
def siblingsOf (people : List Person) (mgr : Option String) : List Person :=
  people.filter (fun p => normalizeMgrId p.managerId = mgr)

/-- A sibling group sorted by the sibling comparator (used both by the
renderer and inside `handleReorderPerson`). -/
def sortedSiblings (people : List Person) (mgr : Option String) : List Person :=
  stableSort sortLE (siblingsOf people mgr)

/-- `siblingIds.forEach((id, i) => normalizedOrders.set(id, i))`: the
normalization map assigning contiguous orders 0..n-1 in sorted order. -/
def buildOrders (sibs : List Person) : List (String × Nat) :=
  (sibs.map Person.id).enum.foldl (fun m e => mapSet m e.2 e.1) []

/-- `handleReorderPerson` (src/App.tsx lines 368-415): normalize the sorted
sibling group to contiguous sort orders 0..n-1, then swap the person with its
left or right neighbour. -/
def handleReorderPerson (people : List Person) (personId : String)
    (direction : Direction) : List Person :=
  match people.find? (fun p => p.id = personId) with
  | none => people
  | some person =>
    let personMgrId := normalizeMgrId person.managerId
    let siblings := sortedSiblings people personMgrId
    if siblings.length ≤ 1 then people
    else
      match siblings.findIdx? (fun s => s.id = personId) with
      | none => people
      | some currentIndex =>
        let targetIndex : Int :=
          match direction with
          | .left => (currentIndex : Int) - 1
          | .right => (currentIndex : Int) + 1
        if targetIndex < 0 ∨ (siblings.length : Int) ≤ targetIndex then people
        else
          match siblings.get? targetIndex.toNat with
          | none => people
          | some targetSibling =>
            let m1 := mapSet (buildOrders siblings) personId targetIndex.toNat
            let m2 := mapSet m1 targetSibling.id currentIndex
            people.map (fun p =>
              match mapGet m2 p.id with
              | some v => { p with sortOrder := some (v : Int) }
              | none => p)

/-- The slice of `AppState` touched by the legacy bare-array import branch. -/
structure AppSnap where
  people : List Person
  departments : List String
  locations : List String
deriving Repr

/-- The bare-array branch of `handleImportData` (src/App.tsx lines 214-224):
replace the person list with the imported records and extend the department
and location registries with the newly seen truthy values. -/
def handleImportData (prev : AppSnap) (imported : List Person) : AppSnap :=
  let newDepts := (jsSetDedup (imported.map (fun p => p.department))).filter
    (fun s => s != "")
  let newLocs := (jsSetDedup (imported.map (fun p => p.location))).filter
    (fun s => s != "")
  { people := imported,
    departments := jsSetDedup (prev.departments ++ newDepts),
    locations := jsSetDedup (prev.locations ++ newLocs) }

/-- Measured node rectangle in unscaled logical coordinates (`NodePosition` in
the Lines component); `centerX` is measured as `left + width / 2`. -/
structure NodePos where
  centerX : ℚ
  top : ℚ
  bottom : ℚ
  left : ℚ
  right : ℚ
deriving DecidableEq, Repr

/-- One rendered secondary-manager connector: owner, secondary manager id and
its horizontal endpoints. -/
structure SecondaryLine where
  personId : String
  secMgrId : String
  startX : ℚ
  endX : ℚ
deriving DecidableEq, Repr

/-- Secondary-manager pass of `calculatePaths` (Lines component): one dotted
path is pushed for EVERY entry of `secondaryManagerIds` whose position and the
person's position are both measurable. -/
def secondaryLines (people : List Person) (pos : String → Option NodePos) :
    List SecondaryLine :=
  people.flatMap (fun person =>
    person.secondaryManagerIds.flatMap (fun secMgrId =>
      match pos person.id, pos secMgrId with
      | some personPos, some secMgrPos =>
        let isRightSide := secMgrPos.centerX < personPos.centerX
        let startX := if isRightSide then secMgrPos.right else secMgrPos.left
        let endX := if isRightSide then personPos.left else personPos.right
        [⟨person.id, secMgrId, startX, endX⟩]
      | _, _ => []))

/-- Drop x-coordinate of a single-target support line (Lines component,
`endX = target.pos.centerX + baseOffset * attachSide + indexOffset`): quarter
of the target card's width away from its center, on the side away from the
supporter, spread by the line's index among all lines sharing the target. -/
def supportEndX (personCenterX targetLeft targetRight targetCenterX : ℚ)
    (indexAmongTargetLinks totalLinksToTarget : ℕ) : ℚ :=
  let cardWidth := targetRight - targetLeft
  let baseOffset := cardWidth * (1 / 4)
  let spreadWidth : ℚ := 20
  let indexOffset :=
    if 1 < totalLinksToTarget then
      ((indexAmongTargetLinks : ℚ) - ((totalLinksToTarget : ℚ) - 1) / 2) * spreadWidth
    else 0
  let attachSide : ℚ := if personCenterX < targetCenterX then -1 else 1
  targetCenterX + baseOffset * attachSide + indexOffset

/-- A manager-to-descendant witness chain: the list of people walked from a
child of `pid` down to the person with id `tid`, each managed by the previous
one. -/
inductive DescVia (people : List Person) : String → List Person → String → Prop
  | single {pid : String} {c : Person} :
      c ∈ people → c.managerId = some pid → DescVia people pid [c] c.id
  | cons {pid tid : String} {c : Person} {cs : List Person} :
      c ∈ people → c.managerId = some pid → DescVia people c.id cs tid →
      DescVia people pid (c :: cs) tid

/-- `tid` is a transitive descendant of `pid` under the `managerId` relation. -/
def Descendant (people : List Person) (pid tid : String) : Prop :=
  ∃ cs, DescVia people pid cs tid

/-- Data-model invariant: ids are unique across the person list. -/
def NoDupIds (people : List Person) : Prop :=
  (people.map Person.id).Nodup

/-- BFS invariant: the tier map has a binding exactly for the visited ids. -/
def TiersMatchVisited (st : BfsSt) : Prop :=
  ∀ k, (mapGet st.tiers k).isSome ↔ k ∈ st.visited

/-- BFS invariant: every queued id has already been visited. -/
def QueueVisited (st : BfsSt) : Prop :=
  ∀ e ∈ st.queue, e.1 ∈ st.visited

/-- BFS invariant: every visited id belongs to some person of the list. -/
def VisitedIds (people : List Person) (st : BfsSt) : Prop :=
  ∀ k ∈ st.visited, ∃ p, p ∈ people ∧ p.id = k

/-- A visited id carries either the root seeding value (manual tier or 0) or
the child value `max(manual tier orelse parentTier+1, parentTier+1)` computed
from its manager's assigned tier. -/
def TierAssigned (people : List Person) (tiers : List (String × Nat))
    (k : String) : Prop :=
  (∃ p, p ∈ people ∧ isRootB people p = true ∧ p.id = k ∧
    mapGet tiers k = some (tierDefault p)) ∨
  (∃ p mid mt, p ∈ people ∧ p.id = k ∧ p.managerId = some mid ∧
    mapGet tiers mid = some mt ∧
    mapGet tiers k = some (max (p.tier.getD (mt + 1)) (mt + 1)))

/-- The full BFS loop invariant. -/
def BfsInv (people : List Person) (st : BfsSt) : Prop :=
  TiersMatchVisited st ∧ QueueVisited st ∧ VisitedIds people st ∧
    ∀ k ∈ st.visited, TierAssigned people st.tiers k

/-- Number of people not yet visited (the BFS termination measure, together
with the queue length). -/
def unvisCount (people : List Person) (vis : List String) : Nat :=
  (people.filter (fun p => p.id ∉ vis)).length

/-! Concrete scenarios from the specification. -/

/-- Root of the basic-tree scenario. -/
def exE1 : Person := { id := "e1", name := "E" }

/-- First direct report of the basic-tree scenario. -/
def exD1 : Person := { id := "d1", name := "D1", managerId := some "e1" }

/-- Second direct report, with the manual tier push `tier = 5`. -/
def exD2 : Person :=
  { id := "d2", name := "D2", managerId := some "e1", tier := some 5 }

/-- The manual-tier-push scenario list. -/
def exTree : List Person := [exE1, exD1, exD2]

/-- Member of a two-person manager cycle. -/
def exCycA : Person := { id := "a", name := "A", managerId := some "b" }

/-- The other member of the cycle. -/
def exCycB : Person := { id := "b", name := "B", managerId := some "a" }

/-- A person list whose manager references form a cycle. -/
def exCycle : List Person := [exCycA, exCycB]

/-- Root of the cycle-rejection scenario. -/
def exMvA : Person := { id := "a", name := "A" }

/-- Report of `exMvA` in the cycle-rejection scenario. -/
def exMvB : Person := { id := "b", name := "B", managerId := some "a" }

/-- The cycle-rejection scenario list. -/
def exMove : List Person := [exMvA, exMvB]

/-- Dragged person of the department-cascade counterexample. -/
def exCascA : Person := { id := "a", name := "A", department := "X" }

/-- Move target with an empty (falsy) department string. -/
def exCascT : Person := { id := "t", name := "T", department := "" }

/-- State of the department-cascade counterexample. -/
def exCasc : List Person := [exCascA, exCascT]

/-- Move target with a proper department, for the cascade witness. -/
def exCascT2 : Person := { id := "t", name := "T", department := "Sales" }

/-- Child of the dragged person in the cascade witness. -/
def exCascC : Person :=
  { id := "c", name := "C", department := "X", managerId := some "a" }

/-- State of the department-cascade witness. -/
def exCasc2 : List Person := [exCascA, exCascC, exCascT2]

/-- First sibling of the reorder round-trip witness. -/
def exQ0 : Person := { id := "q0", name := "Alice", sortOrder := some 0 }

/-- Second sibling of the reorder round-trip witness. -/
def exQ1 : Person := { id := "q1", name := "Bob", sortOrder := some 1 }

/-- Sibling pair for the reorder round-trip witness. -/
def exPair : List Person := [exQ0, exQ1]

/-- Person with an absent `sortOrder`. -/
def exAbs : Person := { id := "x", name := "X" }

/-- Person with a present `sortOrder` above the 999999 sentinel. -/
def exBig : Person := { id := "y", name := "Y", sortOrder := some 1000000 }

/-- Person with `sortOrder` 0, below the sentinel. -/
def exOrd0 : Person := { id := "z", name := "Z", sortOrder := some 0 }

/-- Person with two secondary managers. -/
def exSec : Person :=
  { id := "p", name := "P", secondaryManagerIds := ["m1", "m2"] }

/-- First secondary manager. -/
def exSecM1 : Person := { id := "m1", name := "M1" }

/-- Second secondary manager. -/
def exSecM2 : Person := { id := "m2", name := "M2" }

/-- People for the secondary-manager scenario. -/
def exSecPeople : List Person := [exSec, exSecM1, exSecM2]

/-- Everyone in the secondary-manager scenario measures at the same unit
rectangle except for distinct x positions. -/
def exSecPos (id : String) : Option NodePos :=
  if id = "p" then some ⟨0, 0, 10, -5, 5⟩
  else if id = "m1" then some ⟨100, 0, 10, 95, 105⟩
  else if id = "m2" then some ⟨200, 0, 10, 195, 205⟩
  else none

end OrgChartSpec

namespace OrgChartSpec

open scoped List

/-! ### Generic helper lemmas -/

theorem mapGet_mapSet {α : Type} (m : List (String × α)) (k : String) (v : α)
    (k' : String) :
    mapGet (mapSet m k v) k' = if k = k' then some v else mapGet m k' := by
  induction m with
  | nil => simp [mapSet, mapGet]
  | cons e es ih =>
    by_cases he : e.fst = k
    · subst he
      simp only [mapSet, if_pos rfl]
      by_cases h : e.fst = k' <;> simp [mapGet, h]
    · simp only [mapSet, if_neg he, mapGet, ih]
      by_cases h1 : e.fst = k' <;> by_cases h2 : k = k'
      · exact absurd (h1.trans h2.symm) he
      · simp [h1, h2]
      · simp [h1, h2]
      · simp [h1, h2]

theorem mapGet_isSome_iff_of_set {α : Type} (m : List (String × α)) (k : String)
    (v : α) (k' : String) :
    (mapGet (mapSet m k v) k').isSome ↔ k = k' ∨ (mapGet m k').isSome := by
  rw [mapGet_mapSet]
  by_cases h : k = k' <;> simp [h]

theorem mem_setAdd (v : List String) (x y : String) :
    y ∈ setAdd v x ↔ y = x ∨ y ∈ v := by
  unfold setAdd
  split
  · next h => constructor
              · exact fun hy => Or.inr hy
              · rintro (rfl | hy)
                · exact h
                · exact hy
  · simp [or_comm]

/-! ### C6: the sibling comparator -/

/-- C6 counterexample: the claim says a person with an absent `sortOrder`
sorts after every person with a present `sortOrder`; but the comparator uses
the sentinel 999999 for absent values, so a present `sortOrder` of 1000000
sorts after an absent one (`sortBySortOrder exAbs exBig < 0` puts the absent
person first). -/
theorem sortBySortOrder_sentinel_counterexample :
    exAbs.sortOrder = none ∧ exBig.sortOrder = some 1000000 ∧
      sortBySortOrder exAbs exBig < 0 := by
  refine ⟨rfl, rfl, ?_⟩
  decide

/-- C6 (amended): the comparator treats an absent `sortOrder` as the sentinel
999999, so a person with an absent `sortOrder` sorts after every person whose
present `sortOrder` is below the sentinel; ties on the effective order are
broken with team leads first, and remaining ties by name comparison. -/
theorem sortBySortOrder_spec (a b : Person) (k : Int) :
    (a.sortOrder = none → b.sortOrder = some k → k < 999999 →
      0 < sortBySortOrder a b) ∧
    (orderKey a = orderKey b → a.isTeamLead = true → b.isTeamLead = false →
      sortBySortOrder a b < 0) ∧
    (orderKey a = orderKey b → a.isTeamLead = b.isTeamLead →
      sortBySortOrder a b = localeCompare a.name b.name) := by
  refine ⟨?_, ?_, ?_⟩
  · intro ha hb hk
    simp only [sortBySortOrder, ha, hb, Option.getD_none, Option.getD_some]
    split
    · omega
    · omega
  · intro hEq ha hb
    simp only [sortBySortOrder, orderKey] at hEq ⊢
    rw [hEq]
    simp [ha, hb]
  · intro hEq hLead
    simp only [sortBySortOrder, orderKey] at hEq ⊢
    rw [hEq, hLead]
    simp

/-- Witness for `sortBySortOrder_spec` at concrete inputs. -/
theorem sortBySortOrder_spec_witness :
    (exAbs.sortOrder = none ∧ exOrd0.sortOrder = some 0 ∧ (0 : Int) < 999999 ∧
      0 < sortBySortOrder exAbs exOrd0) := by
  have h := (sortBySortOrder_spec exAbs exOrd0 0).1
  exact ⟨rfl, rfl, by decide, h rfl rfl (by decide)⟩

/-! ### C8: support-line drop offset -/

/-- C8 counterexample: with five lines converging on a 160-wide target card,
the first line's spread term `(0 - (5-1)/2) * 20 = -40` exactly cancels the
quarter-width offset `+40`, so the drop lands dead-center on the target
(x = 80 = the target's center), contradicting the claim that dead-center is
never used. -/
theorem supportEndX_center_counterexample :
    supportEndX 1000 0 160 80 0 5 = 80 := by
  norm_num [supportEndX]

/-- C8 (amended): the drop x equals the target center plus the signed
quarter-width offset (sign away from the supporter) plus the index spread
`(index - (total-1)/2) * 20`; it avoids the exact center whenever only one
line targets the card and the card has positive width, but with several lines
the spread term can cancel the quarter-width offset. -/
theorem supportEndX_spec (px l r c : ℚ) (i t : ℕ) (hit : i < t) :
    supportEndX px l r c i t =
      c + (if px < c then -1 else 1) * ((r - l) / 4) +
        ((i : ℚ) - ((t : ℚ) - 1) / 2) * 20 ∧
    (t = 1 → l < r → supportEndX px l r c i t ≠ c) := by
  constructor
  · unfold supportEndX
    rcases Nat.lt_or_ge 1 t with ht | ht
    · simp only [if_pos ht]
      ring
    · have ht1 : t = 1 := by omega
      have hi0 : i = 0 := by omega
      subst ht1; subst hi0
      norm_num [supportEndX]
      ring
  · intro ht1 hlr
    subst ht1
    have hi0 : i = 0 := by omega
    subst hi0
    unfold supportEndX
    norm_num
    split
    · intro h
      nlinarith
    · intro h
      nlinarith

/-- Witness for `supportEndX_spec` at concrete inputs: one line into a card of
width 160 whose supporter sits to the right. -/
theorem supportEndX_spec_witness :
    (0 : ℕ) < 1 ∧
      supportEndX 1000 0 160 80 0 1 =
        80 + (if (1000 : ℚ) < 80 then -1 else 1) * ((160 - 0) / 4) +
          ((0 : ℚ) - ((1 : ℚ) - 1) / 2) * 20 ∧
      supportEndX 1000 0 160 80 0 1 ≠ 80 := by
  have h := supportEndX_spec 1000 0 160 80 0 1 (by decide)
  exact ⟨by decide, h.1, h.2 rfl (by norm_num)⟩

/-! ### C7: secondary-manager rendering -/

/-- C7 counterexample: for a person with two secondary managers, the connector
pass renders a dotted line for EVERY entry of `secondaryManagerIds`, not just
the first: here both ("p","m1") and ("p","m2") connectors are produced. -/
theorem secondaryLines_all_entries_counterexample :
    exSec.secondaryManagerIds = ["m1", "m2"] ∧
      (secondaryLines exSecPeople exSecPos).map
        (fun l => (l.personId, l.secMgrId)) = [("p", "m1"), ("p", "m2")] := by
  constructor
  · rfl
  · decide

/-- C7 (amended): every entry of `secondaryManagerIds` whose card and the
person's card are both measurable produces a rendered dotted-line connector;
only the card's secondary-manager badge is restricted to the first entry
(`getSecondaryManager` resolves the head of the list). -/
theorem secondaryLines_spec (people : List Person)
    (pos : String → Option NodePos) (p : Person) (hp : p ∈ people)
    (mid : String) (hm : mid ∈ p.secondaryManagerIds) (pp mp : NodePos)
    (hpp : pos p.id = some pp) (hmp : pos mid = some mp) :
    (⟨p.id, mid,
        (if mp.centerX < pp.centerX then mp.right else mp.left),
        (if mp.centerX < pp.centerX then pp.left else pp.right)⟩ :
      SecondaryLine) ∈ secondaryLines people pos ∧
    (∀ m rest, p.secondaryManagerIds = m :: rest →
      getSecondaryManager people p = people.find? (fun q => q.id = m)) := by
  constructor
  · unfold secondaryLines
    refine List.mem_flatMap.mpr ⟨p, hp, ?_⟩
    refine List.mem_flatMap.mpr ⟨mid, hm, ?_⟩
    rw [hpp, hmp]
    simp
  · intro m rest hrep
    unfold getSecondaryManager
    rw [hrep]

/-- Witness for `secondaryLines_spec`: the SECOND secondary manager of `exSec`
gets its own connector. -/
theorem secondaryLines_spec_witness :
    exSec ∈ exSecPeople ∧ "m2" ∈ exSec.secondaryManagerIds ∧
      (⟨"p", "m2", 195, 5⟩ : SecondaryLine) ∈
        secondaryLines exSecPeople exSecPos ∧
      getSecondaryManager exSecPeople exSec =
        exSecPeople.find? (fun q => q.id = "m1") := by
  have h := secondaryLines_spec exSecPeople exSecPos exSec (by decide) "m2"
    (by decide) ⟨0, 0, 10, -5, 5⟩ ⟨200, 0, 10, 195, 205⟩ (by decide) (by decide)
  refine ⟨by decide, by decide, ?_, h.2 "m1" ["m2"] rfl⟩
  have h1 := h.1
  norm_num at h1
  exact h1

/-! ### C9: legacy bare-array import -/

theorem mem_dedupGo (l acc : List String) (x : String) :
    x ∈ dedupGo acc l ↔ x ∈ acc ∨ x ∈ l := by
  induction l generalizing acc with
  | nil => simp [dedupGo]
  | cons y ys ih =>
    unfold dedupGo
    split
    · next hy =>
      rw [ih]
      constructor
      · rintro (h | h)
        · exact Or.inl h
        · exact Or.inr (List.mem_cons_of_mem _ h)
      · rintro (h | h)
        · exact Or.inl h
        · rcases List.mem_cons.mp h with rfl | h
          · exact Or.inl hy
          · exact Or.inr h
    · next hy =>
      rw [ih]
      simp only [List.mem_append, List.mem_singleton, List.mem_cons]
      tauto

theorem nodup_dedupGo (l acc : List String) (hacc : acc.Nodup) :
    (dedupGo acc l).Nodup := by
  induction l generalizing acc with
  | nil => exact hacc
  | cons y ys ih =>
    unfold dedupGo
    split
    · exact ih acc hacc
    · next hy =>
      refine ih _ ?_
      rw [List.nodup_append]
      exact ⟨hacc, List.nodup_singleton y, by simpa using fun h => hy h⟩

theorem mem_jsSetDedup (l : List String) (x : String) :
    x ∈ jsSetDedup l ↔ x ∈ l := by
  unfold jsSetDedup
  rw [mem_dedupGo]
  simp

theorem nodup_jsSetDedup (l : List String) : (jsSetDedup l).Nodup :=
  nodup_dedupGo l [] List.nodup_nil

/-- C9: importing a bare array replaces the person list with exactly the
imported records; the department registry keeps every previously registered
value, gains every non-empty department string of the imported records, each
such string ending up exactly once, and gains nothing else. -/
theorem handleImportData_spec (prev : AppSnap) (imported : List Person) :
    (handleImportData prev imported).people = imported ∧
    (∀ s ∈ prev.departments, s ∈ (handleImportData prev imported).departments) ∧
    (∀ s, s ≠ "" → s ∈ imported.map Person.department →
      (handleImportData prev imported).departments.count s = 1) ∧
    (∀ s ∈ (handleImportData prev imported).departments,
      s ∈ prev.departments ∨ s ∈ imported.map Person.department) := by
  refine ⟨rfl, ?_, ?_, ?_⟩
  · intro s hs
    unfold handleImportData
    simp only [mem_jsSetDedup, List.mem_append]
    exact Or.inl hs
  · intro s hs hmem
    unfold handleImportData
    have hin : s ∈ jsSetDedup (prev.departments ++
        (jsSetDedup (imported.map Person.department)).filter
          (fun t => t != "")) := by
      rw [mem_jsSetDedup]
      refine List.mem_append.mpr (Or.inr ?_)
      rw [List.mem_filter]
      refine ⟨(mem_jsSetDedup _ _).mpr hmem, ?_⟩
      simpa using hs
    exact List.count_eq_one_of_mem (nodup_jsSetDedup _) hin
  · intro s hs
    unfold handleImportData at hs
    simp only [mem_jsSetDedup, List.mem_append, List.mem_filter] at hs
    rcases hs with h | h
    · exact Or.inl h
    · exact Or.inr h.1

/-- Witness for `handleImportData_spec`: importing two people with a brand-new
department into a state that already has one department. -/
theorem handleImportData_spec_witness :
    (handleImportData ⟨[], ["Ops"], []⟩ [exCascA, exCascT2]).people =
        [exCascA, exCascT2] ∧
      "Ops" ∈ (handleImportData ⟨[], ["Ops"], []⟩ [exCascA, exCascT2]).departments ∧
      ("X" : String) ≠ "" ∧
      "X" ∈ [exCascA, exCascT2].map Person.department ∧
      (handleImportData ⟨[], ["Ops"], []⟩
        [exCascA, exCascT2]).departments.count "X" = 1 := by
  have h := handleImportData_spec ⟨[], ["Ops"], []⟩ [exCascA, exCascT2]
  exact ⟨h.1, h.2.1 "Ops" (by decide), by decide, by decide,
    h.2.2.1 "X" (by decide) (by decide)⟩

/-! ### Descendant chains and the fuel-bounded walks of `handleMovePerson` -/

theorem descVia_mem {people : List Person} {pid tid : String} {cs : List Person}
    (h : DescVia people pid cs tid) : ∀ c ∈ cs, c ∈ people := by
  induction h with
  | single hc hm =>
    intro c' hc'
    rw [List.mem_singleton] at hc'
    subst hc'
    assumption
  | cons hc hm hrest ih =>
    intro c' hc'
    rcases List.mem_cons.mp hc' with rfl | hc'
    · assumption
    · exact ih c' hc'

theorem descVia_head {people : List Person} {pid tid : String} {c : Person}
    {cs : List Person} (h : DescVia people pid (c :: cs) tid) :
    c.managerId = some pid := by
  cases h <;> assumption

theorem descVia_cons_inv {people : List Person} {pid tid : String}
    {c : Person} {cs : List Person} (h : DescVia people pid (c :: cs) tid) :
    c ∈ people ∧ c.managerId = some pid ∧
      ((cs = [] ∧ tid = c.id) ∨ DescVia people c.id cs tid) := by
  cases h with
  | single hc hm => exact ⟨hc, hm, Or.inl ⟨rfl, rfl⟩⟩
  | cons hc hm hrest => exact ⟨hc, hm, Or.inr hrest⟩

theorem descVia_suffix {people : List Person} {tid : String} :
    ∀ (us ws : List Person) (q : String), DescVia people q (us ++ ws) tid →
      ws ≠ [] → ∃ r, DescVia people r ws tid := by
  intro us
  induction us with
  | nil =>
    intro ws q h _
    exact ⟨q, h⟩
  | cons u us ih =>
    intro ws q h hne
    rw [List.cons_append] at h
    obtain ⟨hu, hum, hrest⟩ := descVia_cons_inv h
    rcases hrest with ⟨hnil, _⟩ | hrest
    · exact absurd (List.append_eq_nil.mp hnil).2 hne
    · exact ih ws u.id hrest hne

theorem descVia_splice {people : List Person} {tid : String} :
    ∀ (xs : List Person) (a : Person) (ys zs : List Person) (pid : String),
      DescVia people pid (xs ++ a :: ys ++ a :: zs) tid →
      DescVia people pid (xs ++ a :: zs) tid := by
  intro xs
  induction xs with
  | nil =>
    intro a ys zs pid h
    simp only [List.nil_append] at h ⊢
    obtain ⟨ha, hm, hrest⟩ := descVia_cons_inv h
    rcases hrest with ⟨hnil, _⟩ | hrest
    · exact absurd hnil (by simp)
    · obtain ⟨r, hr⟩ := descVia_suffix ys (a :: zs) a.id hrest (by simp)
      have hlink : a.managerId = some r := descVia_head hr
      have hrp : r = pid := by
        rw [hm] at hlink
        exact (Option.some_inj.mp hlink).symm
      subst hrp
      exact hr
  | cons x xs ih =>
    intro a ys zs pid h
    rw [List.cons_append] at h
    obtain ⟨hx, hxm, hrest⟩ := descVia_cons_inv h
    rcases hrest with ⟨hnil, _⟩ | hrest
    · exact absurd hnil (by simp)
    · rw [List.cons_append]
      exact DescVia.cons hx hxm (ih a ys zs x.id hrest)

theorem not_nodup_split {α : Type} [DecidableEq α] :
    ∀ (l : List α), ¬ l.Nodup →
      ∃ (a : α) (l₁ l₂ l₃ : List α), l = l₁ ++ a :: l₂ ++ a :: l₃ := by
  intro l
  induction l with
  | nil => intro h; exact absurd List.nodup_nil h
  | cons x xs ih =>
    intro h
    by_cases hx : x ∈ xs
    · obtain ⟨s, t, rfl⟩ := List.append_of_mem hx
      exact ⟨x, [], s, t, by simp⟩
    · have hxs : ¬ xs.Nodup := fun hn => h (List.nodup_cons.mpr ⟨hx, hn⟩)
      obtain ⟨a, l₁, l₂, l₃, rfl⟩ := ih hxs
      exact ⟨a, x :: l₁, l₂, l₃, by simp⟩

theorem descVia_shorten {people : List Person} {pid tid : String} :
    ∀ (n : Nat) (cs : List Person), cs.length ≤ n →
      DescVia people pid cs tid →
      ∃ cs', cs'.Nodup ∧ DescVia people pid cs' tid := by
  intro n
  induction n with
  | zero =>
    intro cs hlen h
    have hnil : cs = [] := List.eq_nil_of_length_eq_zero (Nat.le_zero.mp hlen)
    subst hnil
    cases h
  | succ n ih =>
    intro cs hlen h
    by_cases hnd : cs.Nodup
    · exact ⟨cs, hnd, h⟩
    · obtain ⟨a, l₁, l₂, l₃, rfl⟩ := not_nodup_split _ hnd
      refine ih (l₁ ++ a :: l₃) ?_ (descVia_splice l₁ a l₂ l₃ pid h)
      simp only [List.length_append, List.length_cons] at hlen ⊢
      omega

theorem descVia_length_le {people : List Person} {pid tid : String}
    {cs : List Person} (h : DescVia people pid cs tid) (hnd : cs.Nodup) :
    cs.length ≤ people.length :=
  (List.subperm_of_subset hnd (fun c hc => descVia_mem h c hc)).length_le

theorem isDescendant_of_chain {people : List Person} {pid tid : String}
    {cs : List Person} (h : DescVia people pid cs tid) :
    ∀ (fuel : Nat), cs.length ≤ fuel → isDescendant people fuel pid tid = true := by
  induction h with
  | @single pid c hc hm =>
    intro fuel hlen
    cases fuel with
    | zero => simp at hlen
    | succ f =>
      unfold isDescendant
      rw [List.any_eq_true]
      refine ⟨c, List.mem_filter.mpr ⟨hc, by simp [hm]⟩, by simp⟩
  | @cons pid tid c cs hc hm hrest ih =>
    intro fuel hlen
    cases fuel with
    | zero => simp at hlen
    | succ f =>
      unfold isDescendant
      rw [List.any_eq_true]
      refine ⟨c, List.mem_filter.mpr ⟨hc, by simp [hm]⟩, ?_⟩
      rw [ih f (by simpa using hlen)]
      simp

theorem descendant_isDescendant {people : List Person} {pid tid : String}
    (h : Descendant people pid tid) :
    isDescendant people people.length pid tid = true := by
  obtain ⟨cs, hcs⟩ := h
  obtain ⟨cs', hnd, hcs'⟩ := descVia_shorten cs.length cs le_rfl hcs
  exact isDescendant_of_chain hcs' people.length (descVia_length_le hcs' hnd)

theorem isDescendant_descendant {people : List Person} :
    ∀ (fuel : Nat) (pid tid : String),
      isDescendant people fuel pid tid = true → Descendant people pid tid := by
  intro fuel
  induction fuel with
  | zero =>
    intro pid tid h
    simp [isDescendant] at h
  | succ f ih =>
    intro pid tid h
    unfold isDescendant at h
    rw [List.any_eq_true] at h
    obtain ⟨c, hcmem, hc⟩ := h
    rw [List.mem_filter] at hcmem
    have hcm : c.managerId = some pid := by simpa using hcmem.2
    simp only [Bool.or_eq_true, decide_eq_true_eq] at hc
    rcases hc with h1 | h2
    · subst h1
      exact ⟨[c], DescVia.single hcmem.1 hcm⟩
    · obtain ⟨cs, hcs⟩ := ih c.id tid h2
      exact ⟨c :: cs, DescVia.cons hcmem.1 hcm hcs⟩

theorem mem_getDescendants_of_chain {people : List Person} {pid x : String}
    {cs : List Person} (h : DescVia people pid cs x) :
    ∀ (fuel : Nat), cs.length ≤ fuel → x ∈ getDescendants people fuel pid := by
  induction h with
  | @single pid c hc hm =>
    intro fuel hlen
    cases fuel with
    | zero => simp at hlen
    | succ f =>
      unfold getDescendants
      refine List.mem_flatMap.mpr ⟨c, List.mem_filter.mpr ⟨hc, by simp [hm]⟩, ?_⟩
      exact List.mem_cons_self _ _
  | @cons pid tid c cs hc hm hrest ih =>
    intro fuel hlen
    cases fuel with
    | zero => simp at hlen
    | succ f =>
      unfold getDescendants
      refine List.mem_flatMap.mpr ⟨c, List.mem_filter.mpr ⟨hc, by simp [hm]⟩, ?_⟩
      exact List.mem_cons_of_mem _ (ih f (by simpa using hlen))

theorem descendant_mem_getDescendants {people : List Person} {pid x : String}
    (h : Descendant people pid x) :
    x ∈ getDescendants people people.length pid := by
  obtain ⟨cs, hcs⟩ := h
  obtain ⟨cs', hnd, hcs'⟩ := descVia_shorten cs.length cs le_rfl hcs
  exact mem_getDescendants_of_chain hcs' people.length (descVia_length_le hcs' hnd)

theorem mem_getDescendants_descendant {people : List Person} :
    ∀ (fuel : Nat) (pid x : String),
      x ∈ getDescendants people fuel pid → Descendant people pid x := by
  intro fuel
  induction fuel with
  | zero =>
    intro pid x h
    simp [getDescendants] at h
  | succ f ih =>
    intro pid x h
    unfold getDescendants at h
    obtain ⟨c, hcmem, hx⟩ := List.mem_flatMap.mp h
    rw [List.mem_filter] at hcmem
    have hcm : c.managerId = some pid := by simpa using hcmem.2
    rcases List.mem_cons.mp hx with rfl | hx
    · exact ⟨[c], DescVia.single hcmem.1 hcm⟩
    · obtain ⟨cs, hcs⟩ := ih c.id x hx
      exact ⟨c :: cs, DescVia.cons hcmem.1 hcm hcs⟩

/-! ### C3: cycle rejection on reparent -/

/-- C3: whenever the target is a transitive descendant of the dragged person,
the move is rejected before any mutation and the person list is returned
completely unchanged. -/
theorem handleMovePerson_cycle_rejected (people : List Person)
    (draggedId targetId : String) (h : Descendant people draggedId targetId) :
    handleMovePerson people draggedId targetId = people := by
  unfold handleMovePerson
  by_cases he : draggedId = targetId
  · rw [if_pos he]
  · rw [if_neg he, if_pos (descendant_isDescendant h)]

/-- Witness for `handleMovePerson_cycle_rejected`: the spec scenario
people = [a, b with manager a]; move(a, onto b) leaves the list unchanged, in
particular a's managerId stays null. -/
theorem handleMovePerson_cycle_rejected_witness :
    Descendant exMove "a" "b" ∧
      handleMovePerson exMove "a" "b" = exMove ∧
      (handleMovePerson exMove "a" "b").map (fun p => (p.id, p.managerId)) =
        [("a", none), ("b", some "a")] := by
  have hdesc : Descendant exMove "a" "b" :=
    ⟨[exMvB], DescVia.single (by decide) rfl⟩
  refine ⟨hdesc, handleMovePerson_cycle_rejected exMove "a" "b" hdesc, ?_⟩
  decide

/-! ### C4: department cascade on successful reparent -/

/-- C4 counterexample: the claim says a successful move always forces the
dragged person's department to the target's department; but the code guards
the assignment with JS truthiness (`targetDepartment || p.department`), so
when the target's department is the empty string the dragged person keeps its
own department ("X" here) instead of taking the target's (""). -/
theorem handleMovePerson_cascade_counterexample :
    exCascT.department = "" ∧
      (handleMovePerson exCasc "a" "t").map (fun q => (q.id, q.department)) =
        [("a", "X"), ("t", "")] := by
  constructor
  · rfl
  · decide

/-- C4 (amended): if the target exists, its department is non-empty, the move
is not a self-move and the target is not a descendant of the dragged person,
then after the move the dragged person reports to the target and carries the
target's department, and so does every transitive descendant of the dragged
person. -/
theorem handleMovePerson_cascade (people : List Person)
    (draggedId targetId : String) (T : Person)
    (hT : people.find? (fun q => q.id = targetId) = some T)
    (hTd : T.department ≠ "")
    (hAT : draggedId ≠ targetId)
    (hdesc : ¬ Descendant people draggedId targetId)
    (hA : ∃ pA ∈ people, pA.id = draggedId) :
    (∃ q ∈ handleMovePerson people draggedId targetId, q.id = draggedId) ∧
    (∀ q ∈ handleMovePerson people draggedId targetId, q.id = draggedId →
      q.managerId = some targetId ∧ q.department = T.department) ∧
    (∀ q ∈ handleMovePerson people draggedId targetId,
      Descendant people draggedId q.id → q.department = T.department) := by
  have hchk : ¬ isDescendant people people.length draggedId targetId = true :=
    fun hh => hdesc (isDescendant_descendant people.length draggedId targetId hh)
  unfold handleMovePerson
  rw [if_neg hAT, if_neg hchk, hT]
  simp only [Option.map_some']
  refine ⟨?_, ?_, ?_⟩
  · obtain ⟨pA, hpA, hpAid⟩ := hA
    refine ⟨_, List.mem_map_of_mem _ hpA, ?_⟩
    simp [hpAid]
  · intro q hq hqid
    obtain ⟨p, hp, rfl⟩ := List.mem_map.mp hq
    by_cases hb : p.id = draggedId
    · rw [if_pos hb]
      refine ⟨rfl, ?_⟩
      simp only [strOrElse]
      rw [if_neg hTd]
    · rw [if_neg hb] at hqid ⊢
      split at hqid
      · next =>
        exact absurd hqid hb
      · next =>
        exact absurd hqid hb
  · intro q hq hqdesc
    obtain ⟨p, hp, rfl⟩ := List.mem_map.mp hq
    by_cases hb : p.id = draggedId
    · rw [if_pos hb]
      simp only [strOrElse]
      rw [if_neg hTd]
    · rw [if_neg hb] at hqdesc ⊢
      have hdq : Descendant people draggedId p.id := by
        split at hqdesc
        · exact hqdesc
        · exact hqdesc
      have hmem : p.id ∈ getDescendants people people.length draggedId :=
        descendant_mem_getDescendants hdq
      have hcond : ((getDescendants people people.length draggedId).contains p.id
          && deptTruthy (some T.department)) = true := by
        rw [Bool.and_eq_true]
        refine ⟨by simpa using hmem, ?_⟩
        simp only [deptTruthy]
        simpa using hTd
      rw [if_pos hcond]
      rfl

/-- Witness for `handleMovePerson_cascade`: moving "a" (with child "c") onto
target "t" in department "Sales" cascades the department to both. -/
theorem handleMovePerson_cascade_witness :
    exCasc2.find? (fun q => q.id = "t") = some exCascT2 ∧
      exCascT2.department ≠ "" ∧
      ("a" : String) ≠ "t" ∧
      ¬ Descendant exCasc2 "a" "t" ∧
      (∀ q ∈ handleMovePerson exCasc2 "a" "t", q.id = "a" →
        q.managerId = some "t" ∧ q.department = exCascT2.department) ∧
      (∀ q ∈ handleMovePerson exCasc2 "a" "t", Descendant exCasc2 "a" q.id →
        q.department = exCascT2.department) ∧
      (handleMovePerson exCasc2 "a" "t").map
        (fun q => (q.id, q.department, q.managerId)) =
        [("a", "Sales", some "t"), ("c", "Sales", some "a"),
         ("t", "Sales", none)] := by
  have hnd : ¬ Descendant exCasc2 "a" "t" := fun h =>
    absurd (descendant_mem_getDescendants h) (by decide)
  have h := handleMovePerson_cascade exCasc2 "a" "t" exCascT2 (by decide)
    (by decide) (by decide) hnd ⟨exCascA, by decide, rfl⟩
  exact ⟨by decide, by decide, by decide, hnd, h.2.1, h.2.2, by decide⟩

/-! ### Facts about the stable sort and the root set -/

theorem insertS_perm {α : Type} (le : α → α → Bool) (x : α) (l : List α) :
    insertS le x l ~ x :: l := by
  induction l with
  | nil => exact List.Perm.refl _
  | cons y ys ih =>
    unfold insertS
    split
    · exact (List.Perm.cons y ih).trans (List.Perm.swap x y ys)
    · exact List.Perm.refl _

theorem foldl_insertS_perm {α : Type} (le : α → α → Bool) :
    ∀ (l acc : List α), l.foldl (fun acc x => insertS le x acc) acc ~ acc ++ l := by
  intro l
  induction l with
  | nil => intro acc; simp
  | cons x xs ih =>
    intro acc
    rw [List.foldl_cons]
    refine (ih (insertS le x acc)).trans ?_
    refine (List.Perm.append_right xs (insertS_perm le x acc)).trans ?_
    rw [List.cons_append]
    exact List.perm_middle.symm

theorem stableSort_perm {α : Type} (le : α → α → Bool) (l : List α) :
    stableSort le l ~ l := by
  unfold stableSort
  simpa using foldl_insertS_perm le l []

theorem mem_rootPeople (people : List Person) (p : Person) :
    p ∈ rootPeople people ↔ p ∈ people ∧ isRootB people p = true := by
  unfold rootPeople
  rw [(stableSort_perm _ _).mem_iff, List.mem_filter]

theorem childrenOf_spec (people : List Person) (mid : String) (c : Person)
    (hc : c ∈ childrenOf people mid) :
    c ∈ people ∧ c.managerId = some mid := by
  unfold childrenOf at hc
  rw [List.mem_filter] at hc
  refine ⟨hc.1, ?_⟩
  have hcond := hc.2
  rw [Bool.and_eq_true] at hcond
  obtain ⟨htr, heq⟩ := hcond
  cases hm : c.managerId with
  | none => rw [mgrTruthy, hm] at htr; exact absurd htr (by simp)
  | some s =>
    have hs : s = mid := by
      have h2 := heq
      rw [hm] at h2
      simpa using h2
    rw [hs]

theorem mapGet_mapSet_ne {α : Type} (m : List (String × α)) (k : String)
    (v : α) (k' : String) (h : k ≠ k') :
    mapGet (mapSet m k v) k' = mapGet m k' := by
  rw [mapGet_mapSet, if_neg h]

theorem mapGet_mapSet_self {α : Type} (m : List (String × α)) (k : String)
    (v : α) : mapGet (mapSet m k v) k = some v := by
  rw [mapGet_mapSet, if_pos rfl]

theorem processKids_cons_mem (pt d : Nat) (c : Person) (cs : List Person)
    (st : BfsSt) (h : c.id ∈ st.visited) :
    processKids pt d (c :: cs) st = processKids pt d cs st := by
  simp only [processKids]
  rw [if_pos h]

theorem processKids_cons_notMem (pt d : Nat) (c : Person) (cs : List Person)
    (st : BfsSt) (h : c.id ∉ st.visited) :
    processKids pt d (c :: cs) st =
      processKids pt d cs
        ⟨mapSet st.tiers c.id (max (c.tier.getD (pt + 1)) (pt + 1)),
         st.visited ++ [c.id], st.queue ++ [(c.id, d + 1)]⟩ := by
  simp only [processKids]
  rw [if_neg h]
  cases htier : c.tier with
  | none => exact rfl
  | some t => exact rfl

theorem effectiveTiers_eq (people : List Person) :
    effectiveTiers people =
      orphanPass people (deriveTiers people).visited (deriveTiers people).tiers :=
  rfl

theorem deriveTiers_eq (people : List Person) :
    deriveTiers people =
      bfsLoop people (bfsFuel people (seedRoots people)) (seedRoots people) :=
  rfl

theorem processKids_inv (people : List Person) (pt d : Nat) (pidp : String) :
    ∀ (cs : List Person) (st : BfsSt),
      (∀ c ∈ cs, c ∈ people ∧ c.managerId = some pidp) →
      mapGet st.tiers pidp = some pt →
      BfsInv people st →
      BfsInv people (processKids pt d cs st) ∧
      (∀ k ∈ st.visited,
        mapGet (processKids pt d cs st).tiers k = mapGet st.tiers k) ∧
      st.visited ⊆ (processKids pt d cs st).visited ∧
      mapGet (processKids pt d cs st).tiers pidp = some pt := by
  intro cs
  induction cs with
  | nil =>
    intro st hkids hpt hinv
    exact ⟨hinv, fun k _ => rfl, fun k hk => hk, hpt⟩
  | cons c cs ih =>
    intro st hkids hpt hinv
    by_cases hvis : c.id ∈ st.visited
    · rw [processKids_cons_mem pt d c cs st hvis]
      exact ih st (fun c' hc' => hkids c' (List.mem_cons_of_mem _ hc')) hpt hinv
    · rw [processKids_cons_notMem pt d c cs st hvis]
      obtain ⟨htm, hqv, hvi, hta⟩ := hinv
      have hpid_vis : pidp ∈ st.visited := by
        refine (htm pidp).mp ?_
        rw [hpt]
        rfl
      have hcne : c.id ≠ pidp := fun h => hvis (h ▸ hpid_vis)
      have hpres1 : ∀ k' ∈ st.visited,
          mapGet (mapSet st.tiers c.id
            (max (c.tier.getD (pt + 1)) (pt + 1))) k' = mapGet st.tiers k' := by
        intro k' hk'
        exact mapGet_mapSet_ne _ _ _ _ (fun h => hvis (h ▸ hk'))
      have htm2 : TiersMatchVisited
          ⟨mapSet st.tiers c.id (max (c.tier.getD (pt + 1)) (pt + 1)),
           st.visited ++ [c.id], st.queue ++ [(c.id, d + 1)]⟩ := by
        intro k
        simp only [mapGet_isSome_iff_of_set]
        rw [htm k]
        simp only [List.mem_append, List.mem_singleton]
        constructor
        · rintro (rfl | h)
          · exact Or.inr rfl
          · exact Or.inl h
        · rintro (h | rfl)
          · exact Or.inr h
          · exact Or.inl rfl
      have hqv2 : QueueVisited
          ⟨mapSet st.tiers c.id (max (c.tier.getD (pt + 1)) (pt + 1)),
           st.visited ++ [c.id], st.queue ++ [(c.id, d + 1)]⟩ := by
        intro e he
        rcases List.mem_append.mp he with he | he
        · exact List.mem_append.mpr (Or.inl (hqv e he))
        · rw [List.mem_singleton] at he
          subst he
          exact List.mem_append.mpr (Or.inr (List.mem_singleton_self _))
      have hvi2 : VisitedIds people
          ⟨mapSet st.tiers c.id (max (c.tier.getD (pt + 1)) (pt + 1)),
           st.visited ++ [c.id], st.queue ++ [(c.id, d + 1)]⟩ := by
        intro k hk
        rcases List.mem_append.mp hk with hk | hk
        · exact hvi k hk
        · rw [List.mem_singleton] at hk
          subst hk
          exact ⟨c, (hkids c (List.mem_cons_self _ _)).1, rfl⟩
      have hta2 : ∀ k ∈ (st.visited ++ [c.id]),
          TierAssigned people
            (mapSet st.tiers c.id (max (c.tier.getD (pt + 1)) (pt + 1))) k := by
        intro k hk
        rcases List.mem_append.mp hk with hk | hk
        · rcases hta k hk with ⟨p, hp, hr, hid, hval⟩ | ⟨p, mid, mt, hp, hid, hm, hmt, hval⟩
          · refine Or.inl ⟨p, hp, hr, hid, ?_⟩
            rw [hpres1 k hk]
            exact hval
          · refine Or.inr ⟨p, mid, mt, hp, hid, hm, ?_, ?_⟩
            · have hmid_vis : mid ∈ st.visited := by
                refine (htm mid).mp ?_
                rw [hmt]
                rfl
              rw [hpres1 mid hmid_vis]
              exact hmt
            · rw [hpres1 k hk]
              exact hval
        · rw [List.mem_singleton] at hk
          subst hk
          refine Or.inr ⟨c, pidp, pt, (hkids c (List.mem_cons_self _ _)).1, rfl,
            (hkids c (List.mem_cons_self _ _)).2, ?_, ?_⟩
          · rw [mapGet_mapSet_ne _ _ _ _ hcne]
            exact hpt
          · exact mapGet_mapSet_self _ _ _
      have hpt2 : mapGet (mapSet st.tiers c.id
          (max (c.tier.getD (pt + 1)) (pt + 1))) pidp = some pt := by
        rw [mapGet_mapSet_ne _ _ _ _ hcne]
        exact hpt
      obtain ⟨hinv3, hpres3, hsub3, hpt3⟩ := ih
        ⟨mapSet st.tiers c.id (max (c.tier.getD (pt + 1)) (pt + 1)),
         st.visited ++ [c.id], st.queue ++ [(c.id, d + 1)]⟩
        (fun c' hc' => hkids c' (List.mem_cons_of_mem _ hc')) hpt2
        ⟨htm2, hqv2, hvi2, hta2⟩
      refine ⟨hinv3, ?_, ?_, hpt3⟩
      · intro k hk
        rw [hpres3 k (List.mem_append.mpr (Or.inl hk)), hpres1 k hk]
      · intro k hk
        exact hsub3 (List.mem_append.mpr (Or.inl hk))

theorem bfsLoop_inv (people : List Person) :
    ∀ (fuel : Nat) (st : BfsSt), BfsInv people st →
      BfsInv people (bfsLoop people fuel st) ∧
      (∀ k ∈ st.visited,
        mapGet (bfsLoop people fuel st).tiers k = mapGet st.tiers k) ∧
      st.visited ⊆ (bfsLoop people fuel st).visited := by
  intro fuel
  induction fuel with
  | zero =>
    intro st hinv
    exact ⟨hinv, fun k _ => rfl, fun k hk => hk⟩
  | succ fuel ih =>
    intro st hinv
    obtain ⟨htm, hqv, hvi, hta⟩ := hinv
    match hq : st.queue with
    | [] =>
      have heq : bfsLoop people (fuel + 1) st = st := by
        unfold bfsLoop
        rw [hq]
      rw [heq]
      exact ⟨⟨htm, hqv, hvi, hta⟩, fun k _ => rfl, fun k hk => hk⟩
    | (id, depth) :: rest =>
      have heq : bfsLoop people (fuel + 1) st =
          bfsLoop people fuel
            (processKids ((mapGet st.tiers id).getD 0) depth
              (childrenOf people id) ⟨st.tiers, st.visited, rest⟩) := by
        simp only [bfsLoop]
        rw [hq]
      have hid_vis : id ∈ st.visited := hqv (id, depth) (by rw [hq]; exact List.mem_cons_self _ _)
      have hpt : mapGet st.tiers id = some ((mapGet st.tiers id).getD 0) := by
        obtain ⟨t, ht⟩ := Option.isSome_iff_exists.mp ((htm id).mpr hid_vis)
        rw [ht]
        rfl
      have hinv1 : BfsInv people ⟨st.tiers, st.visited, rest⟩ := by
        refine ⟨htm, ?_, hvi, hta⟩
        intro e he
        exact hqv e (by rw [hq]; exact List.mem_cons_of_mem _ he)
      obtain ⟨hinv2, hpres2, hsub2, _⟩ :=
        processKids_inv people ((mapGet st.tiers id).getD 0) depth id
          (childrenOf people id) ⟨st.tiers, st.visited, rest⟩
          (fun c hc => childrenOf_spec people id c hc) hpt hinv1
      obtain ⟨hinv3, hpres3, hsub3⟩ := ih _ hinv2
      rw [heq]
      refine ⟨hinv3, ?_, ?_⟩
      · intro k hk
        rw [hpres3 k (hsub2 hk), hpres2 k hk]
      · exact fun k hk => hsub3 (hsub2 hk)

theorem seedFold_inv (people : List Person) :
    ∀ (roots : List Person) (st : BfsSt),
      (∀ p ∈ roots, p ∈ people ∧ isRootB people p = true) →
      TiersMatchVisited st → QueueVisited st → VisitedIds people st →
      (∀ k ∈ st.visited, ∃ p, p ∈ people ∧ isRootB people p = true ∧
        p.id = k ∧ mapGet st.tiers k = some (tierDefault p)) →
      (TiersMatchVisited (roots.foldl
          (fun st p =>
            ⟨mapSet st.tiers p.id (tierDefault p), setAdd st.visited p.id,
             st.queue ++ [(p.id, 0)]⟩) st) ∧
        QueueVisited (roots.foldl
          (fun st p =>
            ⟨mapSet st.tiers p.id (tierDefault p), setAdd st.visited p.id,
             st.queue ++ [(p.id, 0)]⟩) st) ∧
        VisitedIds people (roots.foldl
          (fun st p =>
            ⟨mapSet st.tiers p.id (tierDefault p), setAdd st.visited p.id,
             st.queue ++ [(p.id, 0)]⟩) st) ∧
        ∀ k ∈ (roots.foldl
          (fun st p =>
            ⟨mapSet st.tiers p.id (tierDefault p), setAdd st.visited p.id,
             st.queue ++ [(p.id, 0)]⟩) st).visited,
          ∃ p, p ∈ people ∧ isRootB people p = true ∧ p.id = k ∧
            mapGet (roots.foldl
              (fun st p =>
                ⟨mapSet st.tiers p.id (tierDefault p), setAdd st.visited p.id,
                 st.queue ++ [(p.id, 0)]⟩) st).tiers k =
              some (tierDefault p)) := by
  intro roots
  induction roots with
  | nil =>
    intro st hroots htm hqv hvi hroot
    exact ⟨htm, hqv, hvi, hroot⟩
  | cons x xs ih =>
    intro st hroots htm hqv hvi hroot
    rw [List.foldl_cons]
    refine ih _ (fun p hp => hroots p (List.mem_cons_of_mem _ hp)) ?_ ?_ ?_ ?_
    · intro k
      simp only [mapGet_isSome_iff_of_set, mem_setAdd]
      rw [htm k]
      constructor
      · rintro (rfl | h)
        · exact Or.inl rfl
        · exact Or.inr h
      · rintro (rfl | h)
        · exact Or.inl rfl
        · exact Or.inr h
    · intro e he
      rcases List.mem_append.mp he with he | he
      · exact (mem_setAdd _ _ _).mpr (Or.inr (hqv e he))
      · rw [List.mem_singleton] at he
        subst he
        exact (mem_setAdd _ _ _).mpr (Or.inl rfl)
    · intro k hk
      rcases (mem_setAdd _ _ _).mp hk with rfl | hk
      · exact ⟨x, (hroots x (List.mem_cons_self _ _)).1, rfl⟩
      · exact hvi k hk
    · intro k hk
      rcases (mem_setAdd _ _ _).mp hk with rfl | hk
      · exact ⟨x, (hroots x (List.mem_cons_self _ _)).1,
          (hroots x (List.mem_cons_self _ _)).2, rfl, mapGet_mapSet_self _ _ _⟩
      · by_cases hkx : k = x.id
        · subst hkx
          exact ⟨x, (hroots x (List.mem_cons_self _ _)).1,
            (hroots x (List.mem_cons_self _ _)).2, rfl, mapGet_mapSet_self _ _ _⟩
        · obtain ⟨p, hp, hr, hid, hval⟩ := hroot k hk
          exact ⟨p, hp, hr, hid, by
            rw [mapGet_mapSet_ne _ _ _ _ (fun h => hkx h.symm)]
            exact hval⟩

theorem seedRoots_inv (people : List Person) : BfsInv people (seedRoots people) := by
  unfold seedRoots
  obtain ⟨htm, hqv, hvi, hroot⟩ := seedFold_inv people (rootPeople people)
    ⟨[], [], []⟩ (fun p hp => (mem_rootPeople people p).mp hp)
    (by intro k; simp [mapGet]) (by intro e he; exact absurd he (List.not_mem_nil e))
    (by intro k hk; exact absurd hk (List.not_mem_nil k))
    (by intro k hk; exact absurd hk (List.not_mem_nil k))
  exact ⟨htm, hqv, hvi, fun k hk => Or.inl (hroot k hk)⟩

theorem deriveTiers_inv (people : List Person) :
    BfsInv people (deriveTiers people) ∧
      (∀ k ∈ (seedRoots people).visited,
        mapGet (deriveTiers people).tiers k = mapGet (seedRoots people).tiers k) ∧
      (seedRoots people).visited ⊆ (deriveTiers people).visited := by
  rw [deriveTiers_eq]
  exact bfsLoop_inv people _ _ (seedRoots_inv people)

theorem seedFold_preserve :
    ∀ (roots : List Person) (st : BfsSt) (k : String),
      (∀ q ∈ roots, q.id ≠ k) →
      mapGet ((roots.foldl
        (fun st p =>
          ⟨mapSet st.tiers p.id (tierDefault p), setAdd st.visited p.id,
           st.queue ++ [(p.id, 0)]⟩) st)).tiers k = mapGet st.tiers k ∧
      (k ∈ st.visited → k ∈ (roots.foldl
        (fun st p =>
          ⟨mapSet st.tiers p.id (tierDefault p), setAdd st.visited p.id,
           st.queue ++ [(p.id, 0)]⟩) st).visited) := by
  intro roots
  induction roots with
  | nil =>
    intro st k _
    exact ⟨rfl, fun hk => hk⟩
  | cons x xs ih =>
    intro st k hne
    rw [List.foldl_cons]
    obtain ⟨h1, h2⟩ := ih
      ⟨mapSet st.tiers x.id (tierDefault x), setAdd st.visited x.id,
       st.queue ++ [(x.id, 0)]⟩ k (fun q hq => hne q (List.mem_cons_of_mem _ hq))
    refine ⟨?_, ?_⟩
    · rw [h1]
      exact mapGet_mapSet_ne _ _ _ _ (hne x (List.mem_cons_self _ _))
    · intro hk
      exact h2 ((mem_setAdd _ _ _).mpr (Or.inr hk))

theorem rootPeople_nodupIds (people : List Person) (hnd : NoDupIds people) :
    ((rootPeople people).map Person.id).Nodup := by
  have hperm : List.Perm ((rootPeople people).map Person.id)
      ((people.filter (fun p => isRootB people p)).map Person.id) :=
    (stableSort_perm sortLE (people.filter (fun p => isRootB people p))).map _
  refine hperm.nodup_iff.mpr ?_
  exact List.Nodup.sublist (List.Sublist.map _ (List.filter_sublist people)) hnd

theorem seed_assigns (people : List Person) (hnd : NoDupIds people) :
    ∀ p ∈ rootPeople people,
      mapGet (seedRoots people).tiers p.id = some (tierDefault p) ∧
        p.id ∈ (seedRoots people).visited := by
  have haux : ∀ (roots : List Person) (st : BfsSt),
      (roots.map Person.id).Nodup →
      ∀ p ∈ roots,
        mapGet ((roots.foldl
          (fun st p =>
            ⟨mapSet st.tiers p.id (tierDefault p), setAdd st.visited p.id,
             st.queue ++ [(p.id, 0)]⟩) st)).tiers p.id = some (tierDefault p) ∧
        p.id ∈ (roots.foldl
          (fun st p =>
            ⟨mapSet st.tiers p.id (tierDefault p), setAdd st.visited p.id,
             st.queue ++ [(p.id, 0)]⟩) st).visited := by
    intro roots
    induction roots with
    | nil =>
      intro st _ p hp
      exact absurd hp (List.not_mem_nil p)
    | cons x xs ih =>
      intro st hndr p hp
      rw [List.map_cons, List.nodup_cons] at hndr
      rw [List.foldl_cons]
      rcases List.mem_cons.mp hp with rfl | hp'
      · have hne : ∀ q ∈ xs, q.id ≠ p.id := by
          intro q hq h
          exact hndr.1 (h ▸ List.mem_map_of_mem Person.id hq)
        obtain ⟨h1, h2⟩ := seedFold_preserve xs
          ⟨mapSet st.tiers p.id (tierDefault p), setAdd st.visited p.id,
           st.queue ++ [(p.id, 0)]⟩ p.id hne
        refine ⟨?_, ?_⟩
        · rw [h1]
          exact mapGet_mapSet_self _ _ _
        · exact h2 ((mem_setAdd _ _ _).mpr (Or.inl rfl))
      · exact ih _ hndr.2 p hp'
  intro p hp
  exact haux (rootPeople people) ⟨[], [], []⟩ (rootPeople_nodupIds people hnd) p hp

theorem orphanFold_preserve (vis : List String) :
    ∀ (l : List Person) (t : List (String × Nat)) (k : String),
      (∀ q ∈ l, q.id ∉ vis → q.id ≠ k) →
      mapGet (l.foldl
        (fun t p => if p.id ∈ vis then t else mapSet t p.id (tierDefault p)) t) k =
        mapGet t k := by
  intro l
  induction l with
  | nil => intro t k _; rfl
  | cons x xs ih =>
    intro t k hne
    rw [List.foldl_cons]
    rw [ih _ k (fun q hq => hne q (List.mem_cons_of_mem _ hq))]
    by_cases hx : x.id ∈ vis
    · rw [if_pos hx]
    · rw [if_neg hx]
      exact mapGet_mapSet_ne _ _ _ _ (hne x (List.mem_cons_self _ _) hx)

theorem orphanPass_preserve_visited (people : List Person) (vis : List String)
    (tiers : List (String × Nat)) (k : String) (hk : k ∈ vis) :
    mapGet (orphanPass people vis tiers) k = mapGet tiers k := by
  unfold orphanPass
  exact orphanFold_preserve vis people tiers k (fun q _ hqv hqk => hqv (hqk ▸ hk))

theorem orphanPass_sets_unvisited (people : List Person) (vis : List String)
    (tiers : List (String × Nat)) (hnd : NoDupIds people) :
    ∀ p ∈ people, p.id ∉ vis →
      mapGet (orphanPass people vis tiers) p.id = some (tierDefault p) := by
  have haux : ∀ (l : List Person) (t : List (String × Nat)),
      (l.map Person.id).Nodup →
      ∀ p ∈ l, p.id ∉ vis →
        mapGet (l.foldl
          (fun t p => if p.id ∈ vis then t else mapSet t p.id (tierDefault p)) t)
          p.id = some (tierDefault p) := by
    intro l
    induction l with
    | nil =>
      intro t _ p hp
      exact absurd hp (List.not_mem_nil p)
    | cons x xs ih =>
      intro t hndl p hp hpv
      rw [List.map_cons, List.nodup_cons] at hndl
      rw [List.foldl_cons]
      rcases List.mem_cons.mp hp with rfl | hp'
      · rw [if_neg hpv]
        rw [orphanFold_preserve vis xs _ p.id
          (fun q hq _ h => hndl.1 (h ▸ List.mem_map_of_mem Person.id hq))]
        exact mapGet_mapSet_self _ _ _
      · exact ih _ hndl.2 p hp' hpv
  intro p hp hpv
  exact haux people tiers hnd p hp hpv

theorem orphanFold_isSome (vis : List String) :
    ∀ (l : List Person) (t : List (String × Nat)) (k : String),
      (mapGet t k).isSome →
      (mapGet (l.foldl
        (fun t p => if p.id ∈ vis then t else mapSet t p.id (tierDefault p)) t)
        k).isSome := by
  intro l
  induction l with
  | nil => intro t k h; exact h
  | cons x xs ih =>
    intro t k h
    rw [List.foldl_cons]
    refine ih _ k ?_
    by_cases hx : x.id ∈ vis
    · rw [if_pos hx]
      exact h
    · rw [if_neg hx]
      rw [mapGet_isSome_iff_of_set]
      exact Or.inr h

theorem orphanPass_total (people : List Person) (vis : List String)
    (tiers : List (String × Nat)) :
    ∀ p ∈ people, p.id ∉ vis →
      (mapGet (orphanPass people vis tiers) p.id).isSome := by
  have haux : ∀ (l : List Person) (t : List (String × Nat)),
      ∀ p ∈ l, p.id ∉ vis →
        (mapGet (l.foldl
          (fun t p => if p.id ∈ vis then t else mapSet t p.id (tierDefault p)) t)
          p.id).isSome := by
    intro l
    induction l with
    | nil =>
      intro t p hp
      exact absurd hp (List.not_mem_nil p)
    | cons x xs ih =>
      intro t p hp hpv
      rw [List.foldl_cons]
      rcases List.mem_cons.mp hp with rfl | hp'
      · refine orphanFold_isSome vis xs _ p.id ?_
        rw [if_neg hpv, mapGet_isSome_iff_of_set]
        exact Or.inl rfl
      · exact ih _ p hp' hpv
  intro p hp hpv
  exact haux people tiers p hp hpv

theorem filter_length_mono {α : Type} (P Q : α → Bool) :
    ∀ (l : List α), (∀ a ∈ l, P a = true → Q a = true) →
      (l.filter P).length ≤ (l.filter Q).length := by
  intro l
  induction l with
  | nil => intro _; exact le_rfl
  | cons x xs ih =>
    intro h
    rw [List.filter_cons, List.filter_cons]
    by_cases hP : P x = true
    · rw [if_pos hP, if_pos (h x (List.mem_cons_self _ _) hP)]
      simpa using ih (fun a ha => h a (List.mem_cons_of_mem _ ha))
    · rw [if_neg hP]
      have hle := ih (fun a ha => h a (List.mem_cons_of_mem _ ha))
      split
      · exact Nat.le_succ_of_le hle
      · exact hle

theorem unvisCount_snoc (people : List Person) (vis : List String) (c : Person)
    (hc : c ∈ people) (hcv : c.id ∉ vis) :
    unvisCount people (vis ++ [c.id]) + 1 ≤ unvisCount people vis := by
  unfold unvisCount
  have hmono : ∀ (l : List Person),
      (l.filter (fun p => p.id ∉ vis ++ [c.id])).length ≤
        (l.filter (fun p => p.id ∉ vis)).length := by
    intro l
    refine filter_length_mono _ _ l ?_
    intro a _ ha
    simp only [decide_eq_true_eq, List.mem_append, List.mem_singleton] at ha ⊢
    exact fun h => ha (Or.inl h)
  induction people with
  | nil => exact absurd hc (List.not_mem_nil c)
  | cons x xs ih =>
    rw [List.filter_cons, List.filter_cons]
    rcases List.mem_cons.mp hc with rfl | hc'
    · rw [if_neg (by simp), if_pos (by simpa using hcv)]
      simp only [List.length_cons]
      have hxs := hmono xs
      omega
    · by_cases hxc : x.id ∈ vis ++ [c.id]
      · rw [if_neg (by simp only [decide_eq_true_eq]; exact not_not_intro hxc)]
        have hih := ih hc'
        split
        · simp only [List.length_cons]
          omega
        · omega
      · have h1 : decide (x.id ∉ vis) = true := by
          simp only [decide_eq_true_eq]
          intro h
          exact hxc (List.mem_append.mpr (Or.inl h))
        rw [if_pos (by simpa using hxc), if_pos h1]
        simp only [List.length_cons]
        have hih := ih hc'
        omega

theorem processKids_measure (people : List Person) (pt d : Nat) :
    ∀ (cs : List Person) (st : BfsSt), (∀ c ∈ cs, c ∈ people) →
      (processKids pt d cs st).queue.length +
          unvisCount people (processKids pt d cs st).visited ≤
        st.queue.length + unvisCount people st.visited := by
  intro cs
  induction cs with
  | nil => intro st _; exact le_rfl
  | cons c cs ih =>
    intro st hcs
    by_cases hvis : c.id ∈ st.visited
    · rw [processKids_cons_mem pt d c cs st hvis]
      exact ih st (fun c' hc' => hcs c' (List.mem_cons_of_mem _ hc'))
    · rw [processKids_cons_notMem pt d c cs st hvis]
      have h2 := ih
        ⟨mapSet st.tiers c.id (max (c.tier.getD (pt + 1)) (pt + 1)),
         st.visited ++ [c.id], st.queue ++ [(c.id, d + 1)]⟩
        (fun c' hc' => hcs c' (List.mem_cons_of_mem _ hc'))
      have h3 := unvisCount_snoc people st.visited c
        (hcs c (List.mem_cons_self _ _)) hvis
      simp only [List.length_append, List.length_cons, List.length_nil] at h2
      omega

theorem bfsLoop_empties (people : List Person) :
    ∀ (fuel : Nat) (st : BfsSt),
      st.queue.length + unvisCount people st.visited ≤ fuel →
      (bfsLoop people fuel st).queue = [] := by
  intro fuel
  induction fuel with
  | zero =>
    intro st h
    have hlen : st.queue.length = 0 := by omega
    exact List.eq_nil_of_length_eq_zero hlen
  | succ fuel ih =>
    intro st h
    match hq : st.queue with
    | [] =>
      have heq : bfsLoop people (fuel + 1) st = st := by
        unfold bfsLoop
        rw [hq]
      rw [heq, hq]
    | (id, depth) :: rest =>
      have heq : bfsLoop people (fuel + 1) st =
          bfsLoop people fuel
            (processKids ((mapGet st.tiers id).getD 0) depth
              (childrenOf people id) ⟨st.tiers, st.visited, rest⟩) := by
        simp only [bfsLoop]
        rw [hq]
      rw [heq]
      refine ih _ ?_
      have hm := processKids_measure people ((mapGet st.tiers id).getD 0) depth
        (childrenOf people id) ⟨st.tiers, st.visited, rest⟩
        (fun c hcm => (childrenOf_spec people id c hcm).1)
      have hlen : st.queue.length = rest.length + 1 := by
        rw [hq]
        rfl
      simp only at hm
      omega

theorem deriveTiers_queue_empty (people : List Person) :
    (deriveTiers people).queue = [] := by
  rw [deriveTiers_eq]
  refine bfsLoop_empties people _ _ ?_
  unfold bfsFuel
  have hle : unvisCount people (seedRoots people).visited ≤ people.length :=
    List.length_filter_le _ _
  omega

theorem eq_of_mem_of_id_eq {people : List Person} (hnd : NoDupIds people)
    {p q : Person} (hp : p ∈ people) (hq : q ∈ people) (h : p.id = q.id) :
    p = q := by
  unfold NoDupIds at hnd
  induction people with
  | nil => exact absurd hp (List.not_mem_nil p)
  | cons x xs ih =>
    rw [List.map_cons, List.nodup_cons] at hnd
    rcases List.mem_cons.mp hp with rfl | hp' <;>
      rcases List.mem_cons.mp hq with rfl | hq'
    · rfl
    · exact absurd (h ▸ List.mem_map_of_mem Person.id hq') hnd.1
    · exact absurd (h ▸ List.mem_map_of_mem Person.id hp') hnd.1
    · exact ih hnd.2 hp' hq'

theorem effectiveTiers_root (people : List Person) (hnd : NoDupIds people)
    (p : Person) (hp : p ∈ people) (hr : isRootB people p = true) :
    mapGet (effectiveTiers people) p.id = some (tierDefault p) ∧
      p.id ∈ bfsVisited people := by
  have hmem := (mem_rootPeople people p).mpr ⟨hp, hr⟩
  obtain ⟨hseedval, hseedvis⟩ := seed_assigns people hnd p hmem
  obtain ⟨hinv, hpres, hsub⟩ := deriveTiers_inv people
  have hvis : p.id ∈ (deriveTiers people).visited := hsub hseedvis
  constructor
  · rw [effectiveTiers_eq, orphanPass_preserve_visited people _ _ p.id hvis,
      hpres p.id hseedvis]
    exact hseedval
  · exact hvis

theorem effectiveTiers_child (people : List Person) (hnd : NoDupIds people)
    (p : Person) (hp : p ∈ people) (hv : p.id ∈ bfsVisited people)
    (hnr : isRootB people p = false) :
    ∃ mid mt, p.managerId = some mid ∧
      mapGet (effectiveTiers people) mid = some mt ∧
      mapGet (effectiveTiers people) p.id =
        some (max (p.tier.getD (mt + 1)) (mt + 1)) := by
  obtain ⟨⟨htm, hqv, hvi, hta⟩, _, _⟩ := deriveTiers_inv people
  have hv' : p.id ∈ (deriveTiers people).visited := hv
  rcases hta p.id hv' with ⟨p', hp', hr', hid, hval⟩ |
    ⟨p', mid, mt, hp', hid, hm, hmt, hval⟩
  · have hpp : p' = p := eq_of_mem_of_id_eq hnd hp' hp hid
    rw [hpp, hnr] at hr'
    exact absurd hr' (by simp)
  · have hpp : p' = p := eq_of_mem_of_id_eq hnd hp' hp hid
    subst hpp
    refine ⟨mid, mt, hm, ?_, ?_⟩
    · have hmidvis : mid ∈ (deriveTiers people).visited :=
        (htm mid).mp (by rw [hmt]; rfl)
      rw [effectiveTiers_eq, orphanPass_preserve_visited people _ _ mid hmidvis]
      exact hmt
    · rw [effectiveTiers_eq,
        orphanPass_preserve_visited people _ _ p'.id (hid ▸ hv')]
      exact hval

theorem effectiveTiers_orphan (people : List Person) (hnd : NoDupIds people)
    (p : Person) (hp : p ∈ people) (hv : p.id ∉ bfsVisited people) :
    mapGet (effectiveTiers people) p.id = some (tierDefault p) := by
  rw [effectiveTiers_eq]
  exact orphanPass_sets_unvisited people _ _ hnd p hp hv

/-! ### C1: the effective-tier computation -/

/-- C1: for every person list with unique ids, every root (no resolvable
manager) gets its manual tier or 0; every person reached by the breadth-first
traversal gets `max(manual tier orelse parentTier+1, parentTier+1)` computed
from its manager\'s effective tier; every person not reached gets its manual
tier or 0.  On the spec scenario `[e1, d1, d2(tier 5)]` the resulting map is
e1 to 0, d1 to 1 and d2 to 5. -/
theorem effectiveTiers_spec :
    (∀ (people : List Person), NoDupIds people →
      (∀ p ∈ people, isRootB people p = true →
        mapGet (effectiveTiers people) p.id = some (tierDefault p)) ∧
      (∀ p ∈ people, p.id ∈ bfsVisited people → isRootB people p = false →
        ∃ mid mt, p.managerId = some mid ∧
          mapGet (effectiveTiers people) mid = some mt ∧
          mapGet (effectiveTiers people) p.id =
            some (max (p.tier.getD (mt + 1)) (mt + 1))) ∧
      (∀ p ∈ people, p.id ∉ bfsVisited people →
        mapGet (effectiveTiers people) p.id = some (tierDefault p))) ∧
    (mapGet (effectiveTiers exTree) "e1" = some 0 ∧
      mapGet (effectiveTiers exTree) "d1" = some 1 ∧
      mapGet (effectiveTiers exTree) "d2" = some 5) := by
  constructor
  · intro people hnd
    exact ⟨fun p hp hr => (effectiveTiers_root people hnd p hp hr).1,
      fun p hp hv hnr => effectiveTiers_child people hnd p hp hv hnr,
      fun p hp hv => effectiveTiers_orphan people hnd p hp hv⟩
  · exact ⟨by decide, by decide, by decide⟩

/-- Witness for `effectiveTiers_spec` at the spec scenario: e1 is a root with
no manual tier and ends at tier 0. -/
theorem effectiveTiers_spec_witness :
    NoDupIds exTree ∧ exE1 ∈ exTree ∧ isRootB exTree exE1 = true ∧
      mapGet (effectiveTiers exTree) exE1.id = some (tierDefault exE1) := by
  have hnd : NoDupIds exTree := by
    unfold NoDupIds
    decide
  exact ⟨hnd, by decide, by decide,
    (effectiveTiers_spec.1 exTree hnd).1 exE1 (by decide) (by decide)⟩

/-! ### C2: tier monotonicity -/

/-- C2 counterexample: in a two-person manager cycle both people are
unreachable from any root, so both are assigned tier 0; person "a" has a
manager that resolves to "b" yet its effective tier (0) is NOT greater than
its manager\'s (0), refuting the unconditional monotonicity invariant. -/
theorem effectiveTiers_monotonicity_counterexample :
    exCycA.managerId = some "b" ∧
      exCycle.find? (fun m => m.id = "b") = some exCycB ∧
      tierOf exCycle exCycA.id = some 0 ∧
      tierOf exCycle exCycB.id = some 0 := by
  exact ⟨rfl, by decide, by decide, by decide⟩

/-- C2 (amended): tier monotonicity holds for every person REACHED by the
breadth-first traversal: if such a person\'s managerId resolves to an existing
person, its effective tier is strictly greater than its manager\'s.  (People in
cycles are unreachable and fall back to manual-tier-or-0, where the invariant
can fail.) -/
theorem effectiveTiers_monotone_reachable (people : List Person)
    (hnd : NoDupIds people) (p : Person) (hp : p ∈ people)
    (hv : p.id ∈ bfsVisited people) (s : String) (hs : p.managerId = some s)
    (hsne : s ≠ "") (m : Person)
    (hm : people.find? (fun q => q.id = s) = some m) :
    ∃ tp tm, tierOf people p.id = some tp ∧ tierOf people m.id = some tm ∧
      tm < tp := by
  have hnr : isRootB people p = false := by
    simp only [isRootB, hs, hm]
    simp [hsne]
  obtain ⟨mid, mt, hmid, hmt, hval⟩ := effectiveTiers_child people hnd p hp hv hnr
  have hmids : s = mid := by
    rw [hs] at hmid
    exact Option.some_inj.mp hmid
  have hmident : m.id = s := by
    have hfs := List.find?_some hm
    simpa using hfs
  refine ⟨max (p.tier.getD (mt + 1)) (mt + 1), mt, hval, ?_, ?_⟩
  · show mapGet (effectiveTiers people) m.id = some mt
    rw [hmident, hmids]
    exact hmt
  · exact Nat.lt_of_lt_of_le (Nat.lt_succ_self mt) (le_max_right _ _)

/-- Witness for `effectiveTiers_monotone_reachable`: in the basic tree, d1 is
reached, its manager e1 resolves, and tier(d1) = 1 > 0 = tier(e1). -/
theorem effectiveTiers_monotone_reachable_witness :
    NoDupIds exTree ∧ exD1 ∈ exTree ∧ exD1.id ∈ bfsVisited exTree ∧
      exD1.managerId = some "e1" ∧ ("e1" : String) ≠ "" ∧
      exTree.find? (fun q => q.id = "e1") = some exE1 ∧
      ∃ tp tm, tierOf exTree exD1.id = some tp ∧
        tierOf exTree exE1.id = some tm ∧ tm < tp := by
  have hnd : NoDupIds exTree := by
    unfold NoDupIds
    decide
  exact ⟨hnd, by decide, by decide, rfl, by decide, by decide,
    effectiveTiers_monotone_reachable exTree hnd exD1 (by decide) (by decide)
      "e1" rfl (by decide) exE1 (by decide)⟩

/-! ### C10: totality of the tier deriver -/

/-- C10: on every finite person list, cyclic or dangling references included,
the fuel-bounded BFS drains its queue completely (so the given fuel bound
suffices: each person is enqueued at most once) and, together with the orphan
pass, assigns an effective tier to every person of the list. -/
theorem effectiveTiers_total (people : List Person) :
    (deriveTiers people).queue = [] ∧
      ∀ p ∈ people, (mapGet (effectiveTiers people) p.id).isSome := by
  refine ⟨deriveTiers_queue_empty people, ?_⟩
  intro p hp
  by_cases hv : p.id ∈ (deriveTiers people).visited
  · obtain ⟨⟨htm, _, _, _⟩, _, _⟩ := deriveTiers_inv people
    rw [effectiveTiers_eq, orphanPass_preserve_visited people _ _ p.id hv]
    exact (htm p.id).mpr hv
  · rw [effectiveTiers_eq]
    exact orphanPass_total people _ _ p hp hv

/-- Witness for `effectiveTiers_total` on a cyclic list: the queue drains and
both cycle members still receive a tier. -/
theorem effectiveTiers_total_witness :
    (deriveTiers exCycle).queue = [] ∧ exCycA ∈ exCycle ∧
      (mapGet (effectiveTiers exCycle) exCycA.id).isSome :=
  ⟨(effectiveTiers_total exCycle).1, by decide,
    (effectiveTiers_total exCycle).2 exCycA (by decide)⟩

/-! ### Order theory of the sibling comparator -/

theorem localeCompare_le_iff (a b : String) :
    localeCompare a b ≤ 0 ↔ a ≤ b := by
  unfold localeCompare
  by_cases h1 : a = b
  · subst h1
    simp
  · rw [if_neg h1]
    by_cases h2 : a < b
    · rw [if_pos h2]
      constructor
      · intro _
        exact le_of_lt h2
      · intro _
        norm_num
    · rw [if_neg h2]
      constructor
      · intro h
        norm_num at h
      · intro h
        exact absurd (lt_of_le_of_ne h h1) h2

theorem sortLE_iff (a b : Person) :
    sortLE a b = true ↔
      (orderKey a < orderKey b ∨ (orderKey a = orderKey b ∧
        (leadKey a < leadKey b ∨ (leadKey a = leadKey b ∧ a.name ≤ b.name)))) := by
  unfold sortLE sortBySortOrder orderKey leadKey
  by_cases h1 : (a.sortOrder.getD 999999 : Int) = b.sortOrder.getD 999999
  · rw [if_neg (by omega)]
    by_cases h2 : ((if a.isTeamLead then (0 : Int) else 1) =
        if b.isTeamLead then (0 : Int) else 1)
    · rw [if_neg (by omega)]
      simp only [decide_eq_true_eq]
      rw [localeCompare_le_iff]
      constructor
      · intro h
        exact Or.inr ⟨h1, Or.inr ⟨h2, h⟩⟩
      · rintro (h | ⟨_, h | ⟨_, h⟩⟩)
        · omega
        · omega
        · exact h
    · rw [if_pos (by omega)]
      simp only [decide_eq_true_eq]
      constructor
      · intro h
        exact Or.inr ⟨h1, Or.inl (by omega)⟩
      · rintro (h | ⟨_, h | ⟨h, _⟩⟩)
        · omega
        · omega
        · omega
  · rw [if_pos (by omega)]
    simp only [decide_eq_true_eq]
    constructor
    · intro h
      exact Or.inl (by omega)
    · rintro (h | ⟨h, _⟩)
      · omega
      · omega

theorem sortLE_trans (a b c : Person) (hab : sortLE a b = true)
    (hbc : sortLE b c = true) : sortLE a c = true := by
  rw [sortLE_iff] at hab hbc ⊢
  rcases hab with h1 | ⟨h1, h1'⟩ <;> rcases hbc with h2 | ⟨h2, h2'⟩
  · exact Or.inl (lt_trans h1 h2)
  · exact Or.inl (h2 ▸ h1)
  · exact Or.inl (h1 ▸ h2)
  · refine Or.inr ⟨h1.trans h2, ?_⟩
    rcases h1' with h3 | ⟨h3, h3'⟩ <;> rcases h2' with h4 | ⟨h4, h4'⟩
    · exact Or.inl (lt_trans h3 h4)
    · exact Or.inl (h4 ▸ h3)
    · exact Or.inl (h3 ▸ h4)
    · exact Or.inr ⟨h3.trans h4, le_trans h3' h4'⟩

theorem sortLE_total (a b : Person) :
    sortLE a b = true ∨ sortLE b a = true := by
  rw [sortLE_iff, sortLE_iff]
  rcases lt_trichotomy (orderKey a) (orderKey b) with h | h | h
  · exact Or.inl (Or.inl h)
  · rcases lt_trichotomy (leadKey a) (leadKey b) with h2 | h2 | h2
    · exact Or.inl (Or.inr ⟨h, Or.inl h2⟩)
    · rcases le_total a.name b.name with h3 | h3
      · exact Or.inl (Or.inr ⟨h, Or.inr ⟨h2, h3⟩⟩)
      · exact Or.inr (Or.inr ⟨h.symm, Or.inr ⟨h2.symm, h3⟩⟩)
    · exact Or.inr (Or.inr ⟨h.symm, Or.inl h2⟩)
  · exact Or.inr (Or.inl h)

theorem orderKey_lt_of_sortLE (a b : Person) (h : sortLE a b = true)
    (hne : orderKey a ≠ orderKey b) : orderKey a < orderKey b := by
  rw [sortLE_iff] at h
  rcases h with h | ⟨h, _⟩
  · exact h
  · exact absurd h hne

/-! ### Sortedness and uniqueness of the stable sort -/

theorem mem_insertS {α : Type} (le : α → α → Bool) (x z : α) (l : List α) :
    z ∈ insertS le x l ↔ z = x ∨ z ∈ l :=
  (insertS_perm le x l).mem_iff.trans (List.mem_cons)

theorem insertS_pairwise {α : Type} (le : α → α → Bool)
    (htrans : ∀ a b c, le a b = true → le b c = true → le a c = true)
    (htotal : ∀ a b, le a b = true ∨ le b a = true) (x : α) :
    ∀ l, l.Pairwise (fun a b => le a b = true) →
      (insertS le x l).Pairwise (fun a b => le a b = true) := by
  intro l
  induction l with
  | nil =>
    intro _
    simp [insertS]
  | cons y ys ih =>
    intro hpw
    rw [List.pairwise_cons] at hpw
    unfold insertS
    split
    · next hyx =>
      rw [List.pairwise_cons]
      refine ⟨?_, ih hpw.2⟩
      intro z hz
      rcases (mem_insertS le x z ys).mp hz with rfl | hz
      · exact hyx
      · exact hpw.1 z hz
    · next hyx =>
      have hxy : le x y = true := by
        rcases htotal x y with h | h
        · exact h
        · exact absurd h hyx
      rw [List.pairwise_cons]
      refine ⟨?_, List.pairwise_cons.mpr hpw⟩
      intro z hz
      rcases List.mem_cons.mp hz with rfl | hz
      · exact hxy
      · exact htrans x y z hxy (hpw.1 z hz)

theorem stableSort_pairwise {α : Type} (le : α → α → Bool)
    (htrans : ∀ a b c, le a b = true → le b c = true → le a c = true)
    (htotal : ∀ a b, le a b = true ∨ le b a = true) (l : List α) :
    (stableSort le l).Pairwise (fun a b => le a b = true) := by
  have haux : ∀ (l acc : List α),
      acc.Pairwise (fun a b => le a b = true) →
      (l.foldl (fun acc x => insertS le x acc) acc).Pairwise
        (fun a b => le a b = true) := by
    intro l
    induction l with
    | nil => intro acc h; exact h
    | cons x xs ih =>
      intro acc h
      rw [List.foldl_cons]
      exact ih _ (insertS_pairwise le htrans htotal x acc h)
  exact haux l [] List.Pairwise.nil

theorem stableSort_eq_of_strict (x y : List Person)
    (hperm : List.Perm y x)
    (hsorted : y.Pairwise (fun a b => orderKey a < orderKey b)) :
    stableSort sortLE x = y := by
  have hm_perm : List.Perm (stableSort sortLE x) y :=
    (stableSort_perm sortLE x).trans hperm.symm
  have hm_pw : (stableSort sortLE x).Pairwise (fun a b => sortLE a b = true) :=
    stableSort_pairwise sortLE sortLE_trans sortLE_total x
  have hy_ne : y.Pairwise (fun a b => orderKey a ≠ orderKey b) :=
    hsorted.imp (fun h => ne_of_lt h)
  have hm_ne : (stableSort sortLE x).Pairwise
      (fun a b => orderKey a ≠ orderKey b) := by
    refine (List.Perm.pairwise_iff ?_ hm_perm).mpr hy_ne
    intro a b h hab
    exact h hab.symm
  have hm_strict : (stableSort sortLE x).Pairwise
      (fun a b => orderKey a < orderKey b) :=
    (hm_pw.and hm_ne).imp (fun h => orderKey_lt_of_sortLE _ _ h.1 h.2)
  haveI : IsAntisymm Person (fun a b => orderKey a < orderKey b) :=
    ⟨fun a b h1 h2 => absurd (lt_trans h1 h2) (lt_irrefl _)⟩
  exact List.eq_of_perm_of_sorted hm_perm hm_strict hsorted

theorem set_set_swap_perm {α : Type} :
    ∀ (l : List α) (i : Nat) (h : i + 1 < l.length),
      List.Perm ((l.set i (l.get ⟨i + 1, h⟩)).set (i + 1)
        (l.get ⟨i, Nat.lt_of_succ_lt h⟩)) l := by
  intro l
  induction l with
  | nil =>
    intro i h
    simp at h
  | cons a l' ih =>
    intro i h
    cases i with
    | zero =>
      match l', h with
      | b :: rest, _ =>
        exact List.Perm.swap a b rest
    | succ i =>
      have hlen : i + 1 < l'.length := by
        simpa using h
      simpa using List.Perm.cons a (ih i hlen)

/-! ### The normalization map of the reorder handler -/

theorem mapSet_fresh {α : Type} :
    ∀ (m : List (String × α)) (k : String) (v : α),
      (∀ e ∈ m, e.fst ≠ k) → mapSet m k v = m ++ [(k, v)] := by
  intro m
  induction m with
  | nil => intro k v _; rfl
  | cons e es ih =>
    intro k v hne
    unfold mapSet
    rw [if_neg (hne e (List.mem_cons_self _ _))]
    rw [ih k v (fun e' he' => hne e' (List.mem_cons_of_mem _ he'))]
    rfl

theorem enumFold_eq :
    ∀ (ids : List String) (n : Nat) (acc : List (String × Nat)),
      ids.Nodup → (∀ s ∈ ids, ∀ e ∈ acc, e.fst ≠ s) →
      (ids.enumFrom n).foldl (fun m e => mapSet m e.2 e.1) acc =
        acc ++ (ids.enumFrom n).map (fun e => (e.2, e.1)) := by
  intro ids
  induction ids with
  | nil => intro n acc _ _; simp
  | cons x xs ih =>
    intro n acc hnd hfresh
    rw [List.nodup_cons] at hnd
    rw [List.enumFrom_cons, List.foldl_cons]
    have hstep : mapSet acc x n = acc ++ [(x, n)] :=
      mapSet_fresh acc x n (fun e he => hfresh x (List.mem_cons_self _ _) e he)
    rw [hstep]
    rw [ih (n + 1) (acc ++ [(x, n)]) hnd.2 ?_]
    · simp
    · intro s hs e he
      rcases List.mem_append.mp he with he | he
      · exact hfresh s (List.mem_cons_of_mem _ hs) e he
      · rw [List.mem_singleton] at he
        subst he
        intro hx
        exact hnd.1 ((show x = s from hx) ▸ hs)

theorem mapGet_enumFrom :
    ∀ (ids : List String) (n : Nat), ids.Nodup →
      ∀ (j : Nat) (hj : j < ids.length),
        mapGet ((ids.enumFrom n).map (fun e => (e.2, e.1)))
          (ids.get ⟨j, hj⟩) = some (n + j) := by
  intro ids
  induction ids with
  | nil =>
    intro n _ j hj
    simp at hj
  | cons x xs ih =>
    intro n hnd j hj
    rw [List.nodup_cons] at hnd
    rw [List.enumFrom_cons, List.map_cons]
    cases j with
    | zero =>
      simp [mapGet]
    | succ j =>
      have hj' : j < xs.length := by simpa using hj
      have hne : x ≠ xs.get ⟨j, hj'⟩ := by
        intro h
        exact hnd.1 (h ▸ List.get_mem xs j hj')
      unfold mapGet
      rw [if_neg ?_]
      · have := ih (n + 1) hnd.2 j hj'
        rw [show (x :: xs).get ⟨j + 1, hj⟩ = xs.get ⟨j, hj'⟩ from rfl]
        rw [this]
        congr 1
        omega
      · exact fun h => hne (h.trans (by rfl))

theorem mapGet_enumFrom_notMem :
    ∀ (ids : List String) (n : Nat) (k : String), k ∉ ids →
      mapGet ((ids.enumFrom n).map (fun e => (e.2, e.1))) k = none := by
  intro ids
  induction ids with
  | nil => intro n k _; rfl
  | cons x xs ih =>
    intro n k hk
    rw [List.enumFrom_cons, List.map_cons]
    unfold mapGet
    rw [if_neg (fun h => hk (by rw [← h]; exact List.mem_cons_self _ _))]
    exact ih (n + 1) k (fun h => hk (List.mem_cons_of_mem _ h))

theorem buildOrders_eq (sibs : List Person)
    (hnd : (sibs.map Person.id).Nodup) :
    buildOrders sibs =
      ((sibs.map Person.id).enumFrom 0).map (fun e => (e.2, e.1)) := by
  unfold buildOrders
  rw [show (sibs.map Person.id).enum = (sibs.map Person.id).enumFrom 0 from rfl]
  rw [enumFold_eq (sibs.map Person.id) 0 [] hnd
    (fun s _ e he => absurd he (List.not_mem_nil e))]
  rfl

theorem buildOrders_get (sibs : List Person)
    (hnd : (sibs.map Person.id).Nodup) (j : Nat) (hj : j < sibs.length) :
    mapGet (buildOrders sibs) ((sibs.get ⟨j, hj⟩).id) = some j := by
  rw [buildOrders_eq sibs hnd]
  have hj' : j < (sibs.map Person.id).length := by simpa using hj
  have hget : (sibs.map Person.id).get ⟨j, hj'⟩ = (sibs.get ⟨j, hj⟩).id := by
    simp
  rw [← hget]
  rw [mapGet_enumFrom (sibs.map Person.id) 0 hnd j hj']
  norm_num

theorem buildOrders_notMem (sibs : List Person)
    (hnd : (sibs.map Person.id).Nodup) (k : String)
    (hk : k ∉ sibs.map Person.id) :
    mapGet (buildOrders sibs) k = none := by
  rw [buildOrders_eq sibs hnd]
  exact mapGet_enumFrom_notMem (sibs.map Person.id) 0 k hk

/-! ### findIdx? characterization -/

theorem findIdx?_eq_some_of {α : Type} :
    ∀ (l : List α) (p : α → Bool) (k : Nat) (hk : k < l.length),
      p (l.get ⟨k, hk⟩) = true →
      (∀ (j : Nat) (hj : j < l.length), j < k → p (l.get ⟨j, hj⟩) = false) →
      l.findIdx? p = some k := by
  intro l
  induction l with
  | nil =>
    intro p k hk
    simp at hk
  | cons x xs ih =>
    intro p k hk hkp hmin
    cases k with
    | zero =>
      rw [List.findIdx?_cons, if_pos (show p x = true from hkp)]
    | succ k =>
      have hx : p x = false := hmin 0 (by simp) (Nat.succ_pos k)
      rw [List.findIdx?_cons, if_neg (by rw [hx]; simp), List.findIdx?_succ]
      have hk' : k < xs.length := by simpa using hk
      rw [ih p k hk' hkp (fun j hj hjk =>
        hmin (j + 1) (by simpa using hj) (by omega))]
      rfl

theorem findIdx?_some_spec {α : Type} :
    ∀ (l : List α) (p : α → Bool) (k : Nat), l.findIdx? p = some k →
      ∃ hk : k < l.length, p (l.get ⟨k, hk⟩) = true ∧
        ∀ (j : Nat) (hj : j < l.length), j < k → p (l.get ⟨j, hj⟩) = false := by
  intro l
  induction l with
  | nil =>
    intro p k h
    simp at h
  | cons x xs ih =>
    intro p k h
    rw [List.findIdx?_cons] at h
    by_cases hx : p x = true
    · rw [if_pos hx] at h
      have hk0 : k = 0 := by
        injection h with h
        omega
      subst hk0
      exact ⟨by simp, hx, fun j hj hj0 => absurd hj0 (by omega)⟩
    · rw [if_neg hx, List.findIdx?_succ] at h
      match hx2 : xs.findIdx? p, h with
      | some k', _ =>
        rw [hx2] at h
        have hk : k = k' + 1 := by
          simp at h
          omega
        subst hk
        obtain ⟨hk', hp', hmin'⟩ := ih p k' hx2
        refine ⟨by simpa using Nat.succ_lt_succ hk', hp', ?_⟩
        intro j hj hjk
        cases j with
        | zero =>
          simpa using Bool.eq_false_iff.mpr hx
        | succ j =>
          exact hmin' j (by simpa using hj) (by omega)

/-! ### Mapping commutes with the sibling filter and find? -/

theorem filter_map_pred {α : Type} (f : α → α) (P : α → Bool)
    (h : ∀ a, P (f a) = P a) :
    ∀ (l : List α), (l.map f).filter P = (l.filter P).map f := by
  intro l
  induction l with
  | nil => rfl
  | cons x xs ih =>
    rw [List.map_cons, List.filter_cons, List.filter_cons, h x]
    split
    · rw [List.map_cons, ih]
    · exact ih

theorem find?_map_pred {α : Type} (f : α → α) (P : α → Bool)
    (h : ∀ a, P (f a) = P a) :
    ∀ (l : List α), (l.map f).find? P = (l.find? P).map f := by
  intro l
  induction l with
  | nil => rfl
  | cons x xs ih =>
    rw [List.map_cons, List.find?_cons, List.find?_cons, h x]
    split
    · rfl
    · exact ih

/-! ### One reorder step in closed form -/

theorem handleReorderPerson_eq (people : List Person) (pid : String)
    (dir : Direction) (p t : Person)
    (hfind : people.find? (fun q => q.id = pid) = some p)
    (ci ti : Nat)
    (hidx : (sortedSiblings people (normalizeMgrId p.managerId)).findIdx?
      (fun q => q.id = pid) = some ci)
    (hlen : 1 < (sortedSiblings people (normalizeMgrId p.managerId)).length)
    (hti : ti < (sortedSiblings people (normalizeMgrId p.managerId)).length)
    (hdir : (dir = Direction.right ∧ ti = ci + 1) ∨
      (dir = Direction.left ∧ ci = ti + 1))
    (htget : (sortedSiblings people (normalizeMgrId p.managerId)).get ⟨ti, hti⟩ = t) :
    handleReorderPerson people pid dir = people.map (fun q =>
      match mapGet (mapSet (mapSet
          (buildOrders (sortedSiblings people (normalizeMgrId p.managerId)))
          pid ti) t.id ci) q.id with
      | some v => { q with sortOrder := some (v : Int) }
      | none => q) := by
  unfold handleReorderPerson
  rw [hfind]
  simp only [hidx]
  rw [if_neg (by omega)]
  rcases hdir with ⟨hd, hTI⟩ | ⟨hd, hTI⟩ <;> subst hd
  · have hcast : (((ci : Int) + 1) < 0 ∨
        ((sortedSiblings people (normalizeMgrId p.managerId)).length : Int) ≤
          (ci : Int) + 1) = False := by
      simp only [eq_iff_iff, iff_false]
      push_neg
      constructor
      · omega
      · omega
    simp only [hcast, if_false]
    have htn : ((ci : Int) + 1).toNat = ti := by omega
    rw [htn, List.get?_eq_get hti, htget]
  · have hcast : (((ci : Int) - 1) < 0 ∨
        ((sortedSiblings people (normalizeMgrId p.managerId)).length : Int) ≤
          (ci : Int) - 1) = False := by
      simp only [eq_iff_iff, iff_false]
      push_neg
      constructor
      · omega
      · omega
    simp only [hcast, if_false]
    have htn : ((ci : Int) - 1).toNat = ti := by omega
    rw [htn, List.get?_eq_get hti, htget]

/-! ### The sortOrder update applied by the reorder handler -/

theorem updF_apply (M : List (String × Nat)) (q : Person) (v : Nat)
    (h : mapGet M q.id = some v) :
    (match mapGet M q.id with
      | some w => { q with sortOrder := some (w : Int) }
      | none => q) = { q with sortOrder := some (v : Int) } := by
  rw [h]

theorem updF_id (M : List (String × Nat)) (q : Person) :
    (match mapGet M q.id with
      | some w => { q with sortOrder := some (w : Int) }
      | none => q).id = q.id := by
  cases h : mapGet M q.id <;> rfl

theorem updF_managerId (M : List (String × Nat)) (q : Person) :
    (match mapGet M q.id with
      | some w => { q with sortOrder := some (w : Int) }
      | none => q).managerId = q.managerId := by
  cases h : mapGet M q.id <;> rfl

theorem sortedSiblings_map (people : List Person) (G : Option String)
    (F : Person → Person) (u : List Person)
    (hmgr : ∀ q, (F q).managerId = q.managerId)
    (hperm : List.Perm u ((siblingsOf people G).map F))
    (hsorted : u.Pairwise (fun a b => orderKey a < orderKey b)) :
    sortedSiblings (people.map F) G = u := by
  unfold sortedSiblings
  have hfil : siblingsOf (people.map F) G = (siblingsOf people G).map F := by
    unfold siblingsOf
    refine filter_map_pred F _ ?_ people
    intro a
    simp [hmgr a]
  rw [hfil]
  exact stableSort_eq_of_strict _ u hperm hsorted

/-! ### C5: reorder round trip -/

theorem sortOrder_mk (q : Person) (v : Option Int) :
    ({ q with sortOrder := v }).sortOrder = v := rfl

/-- C5: for a person with an adjacent right sibling in the sorted sibling
sequence, reorder right followed by reorder left restores the original
sibling sequence (same people in the same order, though the stored sortOrder
integers are renormalized); moreover the first reorder leaves the sibling
group with contiguous sortOrder values 0..n-1. -/
theorem handleReorderPerson_round_trip (people : List Person)
    (hnd : NoDupIds people) (pid : String) (p : Person)
    (hfind : people.find? (fun q => q.id = pid) = some p) (i : Nat)
    (hidx : (sortedSiblings people (normalizeMgrId p.managerId)).findIdx?
      (fun q => q.id = pid) = some i)
    (hadj : i + 1 <
      (sortedSiblings people (normalizeMgrId p.managerId)).length) :
    (sortedSiblings
        (handleReorderPerson (handleReorderPerson people pid Direction.right)
          pid Direction.left) (normalizeMgrId p.managerId)).map Person.id =
      (sortedSiblings people (normalizeMgrId p.managerId)).map Person.id ∧
    (sortedSiblings (handleReorderPerson people pid Direction.right)
        (normalizeMgrId p.managerId)).map (fun q => q.sortOrder) =
      (List.range
        (sortedSiblings people (normalizeMgrId p.managerId)).length).map
        (fun (k : Nat) => some (k : Int)) := by
  set G := normalizeMgrId p.managerId with hG
  set s := sortedSiblings people G with hs
  have hn2 : 1 < s.length := by omega
  have hci : i < s.length := Nat.lt_of_succ_lt hadj
  obtain ⟨hci', hpi, hmin⟩ := findIdx?_some_spec s _ i hidx
  have hpid : (s.get ⟨i, hci'⟩).id = pid := by simpa using hpi
  have hsnd : (s.map Person.id).Nodup := by
    have hperm : List.Perm (s.map Person.id)
        ((siblingsOf people G).map Person.id) :=
      (stableSort_perm sortLE (siblingsOf people G)).map _
    refine hperm.nodup_iff.mpr ?_
    exact List.Nodup.sublist (List.Sublist.map _ (List.filter_sublist people)) hnd
  have hinj : ∀ (j k : Nat) (hj : j < s.length) (hk : k < s.length),
      (s.get ⟨j, hj⟩).id = (s.get ⟨k, hk⟩).id → j = k := by
    intro j k hj hk h
    have hj' : j < (s.map Person.id).length := by simpa using hj
    have hk' : k < (s.map Person.id).length := by simpa using hk
    have hmap : (s.map Person.id).get ⟨j, hj'⟩ = (s.map Person.id).get ⟨k, hk'⟩ := by
      simp only [List.get_eq_getElem, List.getElem_map]
      simpa [List.get_eq_getElem] using h
    have hfin := (hsnd.get_inj_iff).mp hmap
    simpa using congrArg Fin.val hfin
  set t := s.get ⟨i + 1, hadj⟩ with ht
  have htid_ne : t.id ≠ pid := by
    rw [← hpid]
    intro h
    have := hinj (i + 1) i hadj hci' h
    omega
  -- the first reorder in closed form
  have hr1 : handleReorderPerson people pid Direction.right =
      people.map (fun q =>
        match mapGet (mapSet (mapSet (buildOrders s) pid (i + 1)) t.id i)
            q.id with
        | some v => { q with sortOrder := some (v : Int) }
        | none => q) :=
    handleReorderPerson_eq people pid Direction.right p t hfind i (i + 1)
      hidx hn2 hadj (Or.inl ⟨rfl, rfl⟩) ht.symm
  set M1 := mapSet (mapSet (buildOrders s) pid (i + 1)) t.id i with hM1
  set F1 : Person → Person := fun q =>
      match mapGet M1 q.id with
      | some v => { q with sortOrder := some (v : Int) }
      | none => q with hF1
  have hF1_id : ∀ q, (F1 q).id = q.id := fun q => updF_id M1 q
  have hF1_mgr : ∀ q, (F1 q).managerId = q.managerId :=
    fun q => updF_managerId M1 q
  have hM1get : ∀ k, mapGet M1 k =
      if t.id = k then some i
      else if pid = k then some (i + 1)
      else mapGet (buildOrders s) k := by
    intro k
    rw [hM1, mapGet_mapSet, mapGet_mapSet]
  have hF1s : ∀ (j : Nat) (hj : j < s.length),
      F1 (s.get ⟨j, hj⟩) = { s.get ⟨j, hj⟩ with sortOrder := some (((if j = i then i + 1 else if j = i + 1 then i else j : Nat)) : Int) } := by
    intro j hj
    have hval : mapGet M1 (s.get ⟨j, hj⟩).id =
        some (if j = i then i + 1 else if j = i + 1 then i else j) := by
      rw [hM1get]
      by_cases hji : j = i
      · subst hji
        rw [if_neg (fun h => htid_ne (h.trans hpid)), if_pos hpid.symm]
        simp
      · by_cases hji1 : j = i + 1
        · subst hji1
          rw [if_pos (show t.id = (s.get ⟨i + 1, hj⟩).id from rfl)]
          simp [hji]
        · rw [if_neg (fun h => hji1 (hinj (i + 1) j hadj hj
            (show t.id = (s.get ⟨j, hj⟩).id from h)).symm)]
          rw [if_neg (fun h => hji (hinj j i hj hci' (hpid ▸ h.symm)))]
          rw [buildOrders_get s hsnd j hj]
          simp [hji, hji1]
    exact updF_apply M1 _ _ hval
  -- the swapped sorted sibling list after the first reorder
  set l1 := s.map F1 with hl1
  have hl1_len : l1.length = s.length := by
    rw [hl1, List.length_map]
  have hl1_geti : l1.get ⟨i, by omega⟩ = F1 (s.get ⟨i, hci'⟩) := by
    simp [hl1]
  have hl1_geti1 : l1.get ⟨i + 1, by omega⟩ = F1 t := by
    rw [ht]
    simp [hl1]
  set u := (l1.set i (F1 t)).set (i + 1) (F1 (s.get ⟨i, hci'⟩)) with hu
  have hu_len : u.length = s.length := by
    rw [hu]
    simp [hl1_len]
  have hu_get : ∀ (j : Nat) (hj : j < s.length),
      u.get ⟨j, by omega⟩ =
        if j = i then F1 t
        else if j = i + 1 then F1 (s.get ⟨i, hci'⟩)
        else F1 (s.get ⟨j, hj⟩) := by
    intro j hj
    have hj2 : j < ((l1.set i (F1 t)).set (i + 1)
        (F1 (s.get ⟨i, hci'⟩))).length := by
      simpa [hl1_len] using hj
    show ((l1.set i (F1 t)).set (i + 1) (F1 (s.get ⟨i, hci'⟩))).get ⟨j, hj2⟩ = _
    simp only [List.get_eq_getElem]
    by_cases hji : j = i
    · rw [if_pos hji]
      rw [List.getElem_set_ne (by omega)]
      simp only [hji, List.getElem_set_self]
    · by_cases hji1 : j = i + 1
      · rw [if_neg hji, if_pos hji1]
        simp only [hji1, List.getElem_set_self]
      · rw [if_neg hji, if_neg hji1]
        rw [List.getElem_set_ne (fun h => hji1 h.symm),
          List.getElem_set_ne (fun h => hji h.symm)]
        simp [hl1]
  have hu_ord : ∀ (j : Nat) (hj : j < s.length),
      (u.get ⟨j, by omega⟩).sortOrder = some (j : Int) := by
    intro j hj
    rw [hu_get j hj]
    by_cases hji : j = i
    · rw [if_pos hji, ht, hF1s (i + 1) hadj, sortOrder_mk]
      rw [if_neg (show ¬(i + 1 = i) by omega), if_pos rfl, hji]
    · by_cases hji1 : j = i + 1
      · rw [if_neg hji, if_pos hji1, hF1s i hci', sortOrder_mk]
        rw [if_pos rfl, hji1]
      · rw [if_neg hji, if_neg hji1, hF1s j hj, sortOrder_mk]
        rw [if_neg hji, if_neg hji1]
  have hu_sorted : u.Pairwise (fun a b => orderKey a < orderKey b) := by
    rw [List.pairwise_iff_getElem]
    intro j k hj hk hjk
    have hjs : j < s.length := by omega
    have hks : k < s.length := by omega
    have h1 : u[j] = u.get ⟨j, by omega⟩ := rfl
    have h2 : u[k] = u.get ⟨k, by omega⟩ := rfl
    rw [h1, h2]
    unfold orderKey
    rw [hu_ord j hjs, hu_ord k hks]
    simp only [Option.getD_some]
    omega
  have hu_perm : List.Perm u ((siblingsOf people G).map F1) := by
    have hswap : List.Perm u l1 := by
      have h1 : F1 t = l1.get ⟨i + 1, by omega⟩ := hl1_geti1.symm
      have h2 : F1 (s.get ⟨i, hci'⟩) = l1.get ⟨i, by omega⟩ := hl1_geti.symm
      rw [hu, h1, h2]
      exact set_set_swap_perm l1 i (by omega)
    refine hswap.trans ?_
    rw [hl1]
    exact (stableSort_perm sortLE (siblingsOf people G)).map F1
  have hs1 : sortedSiblings (people.map F1) G = u :=
    sortedSiblings_map people G F1 u hF1_mgr hu_perm hu_sorted
  -- conjunct 2: contiguous sort orders after the first reorder
  have hconj2 : (sortedSiblings (handleReorderPerson people pid
      Direction.right) G).map (fun q => q.sortOrder) =
      (List.range s.length).map (fun (k : Nat) => some (k : Int)) := by
    rw [hr1, hs1]
    refine List.ext_getElem ?_ ?_
    · rw [List.length_map, List.length_map, List.length_range, hu_len]
    · intro j h1 h2
      have hjs : j < s.length := by
        rw [List.length_map, hu_len] at h1
        exact h1
      simp only [List.getElem_map, List.getElem_range]
      exact hu_ord j hjs
  -- the second reorder
  have hfind1 : (people.map F1).find? (fun q => q.id = pid) = some (F1 p) := by
    rw [find?_map_pred F1 _ (fun a => by simp [hF1_id a]) people, hfind]
    rfl
  have hG1 : normalizeMgrId (F1 p).managerId = G := by
    rw [hF1_mgr p]
  have hs1' : sortedSiblings (people.map F1)
      (normalizeMgrId (F1 p).managerId) = u := by
    rw [hG1]
    exact hs1
  have hidx1 : (sortedSiblings (people.map F1)
      (normalizeMgrId (F1 p).managerId)).findIdx?
      (fun q => q.id = pid) = some (i + 1) := by
    rw [hs1']
    refine findIdx?_eq_some_of u _ (i + 1) (by omega) ?_ ?_
    · have hg : u.get ⟨i + 1, by omega⟩ = F1 (s.get ⟨i, hci'⟩) := by
        rw [hu_get (i + 1) hadj]
        rw [if_neg (show ¬(i + 1 = i) by omega), if_pos rfl]
      rw [hg]
      simp only [hF1_id, decide_eq_true_eq]
      exact hpid
    · intro j hj hjlt
      have hjs : j < s.length := by omega
      have hje : u.get ⟨j, hj⟩ = u.get ⟨j, by omega⟩ := rfl
      rw [hje, hu_get j hjs]
      by_cases hji : j = i
      · subst hji
        rw [if_pos rfl]
        simp [hF1_id, htid_ne]
      · have hji1 : j ≠ i + 1 := by omega
        rw [if_neg hji, if_neg hji1]
        have hjlt' : j < i := by omega
        have hm := hmin j hjs hjlt'
        simp only [hF1_id]
        simpa using hm
  have hlen1 : 1 < (sortedSiblings (people.map F1)
      (normalizeMgrId (F1 p).managerId)).length := by
    rw [hs1', hu_len]
    omega
  have hti1 : i < (sortedSiblings (people.map F1)
      (normalizeMgrId (F1 p).managerId)).length := by
    rw [hs1', hu_len]
    omega
  have htget1 : (sortedSiblings (people.map F1)
      (normalizeMgrId (F1 p).managerId)).get ⟨i, hti1⟩ = F1 t := by
    rw [List.get_of_eq hs1' ⟨i, hti1⟩]
    have hje : u.get ⟨i, by rw [hs1'] at hti1; exact hti1⟩ =
        u.get ⟨i, by omega⟩ := rfl
    rw [hje, hu_get i hci]
    simp
  have hr2 : handleReorderPerson (people.map F1) pid Direction.left =
      (people.map F1).map (fun q =>
        match mapGet (mapSet (mapSet (buildOrders u) pid i)
            (F1 t).id (i + 1)) q.id with
        | some v => { q with sortOrder := some (v : Int) }
        | none => q) := by
    have hr := handleReorderPerson_eq (people.map F1) pid Direction.left
      (F1 p) (F1 t) hfind1 (i + 1) i hidx1 hlen1 hti1
      (Or.inr ⟨rfl, rfl⟩) htget1
    rw [hs1'] at hr
    exact hr
  set M2 := mapSet (mapSet (buildOrders u) pid i) (F1 t).id (i + 1) with hM2
  set F2 : Person → Person := fun q =>
      match mapGet M2 q.id with
      | some v => { q with sortOrder := some (v : Int) }
      | none => q with hF2
  have hF2_id : ∀ q, (F2 q).id = q.id := fun q => updF_id M2 q
  have hF2_mgr : ∀ q, (F2 q).managerId = q.managerId :=
    fun q => updF_managerId M2 q
  have hund : (u.map Person.id).Nodup := by
    have h1 : List.Perm (u.map Person.id)
        (((siblingsOf people G).map F1).map Person.id) := hu_perm.map _
    rw [List.map_map] at h1
    have h2 : (siblingsOf people G).map (Person.id ∘ F1) =
        (siblingsOf people G).map Person.id :=
      List.map_congr_left (fun a _ => hF1_id a)
    rw [h2] at h1
    exact h1.nodup_iff.mpr
      (List.Nodup.sublist (List.Sublist.map _ (List.filter_sublist people)) hnd)
  have hM2get : ∀ k, mapGet M2 k =
      if t.id = k then some (i + 1)
      else if pid = k then some i
      else mapGet (buildOrders u) k := by
    intro k
    rw [hM2, mapGet_mapSet, mapGet_mapSet, hF1_id t]
  have hcomp : ∀ (j : Nat) (hj : j < s.length),
      F2 (F1 (s.get ⟨j, hj⟩)) =
        { s.get ⟨j, hj⟩ with sortOrder := some (j : Int) } := by
    intro j hj
    rw [hF1s j hj]
    have hval : mapGet M2 (s.get ⟨j, hj⟩).id = some j := by
      rw [hM2get]
      by_cases hji : j = i
      · subst hji
        rw [if_neg (fun h => htid_ne (h.trans hpid)), if_pos hpid.symm]
      · by_cases hji1 : j = i + 1
        · subst hji1
          rw [if_pos (show t.id = (s.get ⟨i + 1, hj⟩).id from rfl)]
        · rw [if_neg (fun h => hji1 (hinj (i + 1) j hadj hj
            (show t.id = (s.get ⟨j, hj⟩).id from h)).symm)]
          rw [if_neg (fun h => hji (hinj j i hj hci' (hpid ▸ h.symm)))]
          have hju : j < u.length := by omega
          have hu_id : (u.get ⟨j, hju⟩).id = (s.get ⟨j, hj⟩).id := by
            have hje : u.get ⟨j, hju⟩ = u.get ⟨j, by omega⟩ := rfl
            rw [hje, hu_get j hj, if_neg hji, if_neg hji1, hF1_id]
          rw [← hu_id]
          exact buildOrders_get u hund j hju
    exact updF_apply M2 _ _ hval
  -- the final sorted sibling list
  have hr2' : handleReorderPerson (handleReorderPerson people pid
      Direction.right) pid Direction.left =
      people.map (fun q => F2 (F1 q)) := by
    rw [hr1, hr2, List.map_map]
    rfl
  set w := s.map (fun q => F2 (F1 q)) with hw
  have hw_get : ∀ (j : Nat) (hj : j < s.length),
      w.get ⟨j, by rw [hw, List.length_map]; exact hj⟩ =
        { s.get ⟨j, hj⟩ with sortOrder := some (j : Int) } := by
    intro j hj
    have : w.get ⟨j, by rw [hw, List.length_map]; exact hj⟩ =
        F2 (F1 (s.get ⟨j, hj⟩)) := by
      simp [hw]
    rw [this, hcomp j hj]
  have hw_sorted : w.Pairwise (fun a b => orderKey a < orderKey b) := by
    rw [List.pairwise_iff_getElem]
    intro j k hj hk hjk
    have hw_len : w.length = s.length := by rw [hw, List.length_map]
    have hjs : j < s.length := by omega
    have hks : k < s.length := by omega
    have h1 : w[j] = w.get ⟨j, by omega⟩ := rfl
    have h2 : w[k] = w.get ⟨k, by omega⟩ := rfl
    rw [h1, h2, hw_get j hjs, hw_get k hks]
    unfold orderKey
    simp only [Option.getD_some]
    omega
  have hw_perm : List.Perm w ((siblingsOf people G).map (fun q => F2 (F1 q))) := by
    rw [hw]
    exact (stableSort_perm sortLE (siblingsOf people G)).map _
  have hsfinal : sortedSiblings (people.map (fun q => F2 (F1 q))) G = w :=
    sortedSiblings_map people G _ w
      (fun q => by rw [hF2_mgr, hF1_mgr]) hw_perm hw_sorted
  constructor
  · rw [hr2', hsfinal, hw, List.map_map]
    refine List.map_congr_left ?_
    intro a _
    show (F2 (F1 a)).id = a.id
    rw [hF2_id, hF1_id]
  · exact hconj2


/-- Witness: on the concrete sibling pair, reorder right then left restores
the sorted sibling id sequence, and the first reorder normalizes the
sort orders to 0..n-1. -/
theorem handleReorderPerson_round_trip_witness :
    (sortedSiblings (handleReorderPerson (handleReorderPerson exPair "q0"
        Direction.right) "q0" Direction.left)
      (normalizeMgrId exQ0.managerId)).map Person.id =
      (sortedSiblings exPair (normalizeMgrId exQ0.managerId)).map Person.id ∧
    (sortedSiblings (handleReorderPerson exPair "q0" Direction.right)
        (normalizeMgrId exQ0.managerId)).map (fun q => q.sortOrder) =
      (List.range (sortedSiblings exPair
        (normalizeMgrId exQ0.managerId)).length).map
        (fun (k : Nat) => some (k : Int)) :=
  handleReorderPerson_round_trip exPair (by unfold NoDupIds; decide) "q0" exQ0
    (by decide) 0 (by decide) (by decide)

end OrgChartSpec
